import Mathlib

/-!
# flower: supervised service groups with a reverse-order shutdown cascade

A verification development over a shallow embedding of `flower.go` (package
`flower`) and `smesh.go` (package `smesh`).

The embedding has two layers that share the code of one attempt.

* The sequential layer follows one service goroutine: the closure handed to
  `retry` inside `ServiceGroup.run` (`runServiceFn`), and `retry` itself.
  What the environment does (whether a hook or `service.Run` returns or
  panics, who wins the `select` of a pause) is read from explicit oracles, and
  every call the code makes is recorded in a trace of `Event`s.
* The concurrent layer is an interleaving transition system (`step`) for a
  whole call of `Run`: one goroutine per service, one per group, and the
  caller of `Run`, with the contexts and the two levels of `sync.WaitGroup`.

Modelled outcomes of a call are a normal return and a panic with a non-nil
value; in the concurrent layer a service or a hook may also end its goroutine
with `runtime.Goexit()`. `time.Duration` is an integer number of nanoseconds.
-/

namespace Flower

/-! ## Data model -/

/-- How a call of a hook or of `service.Run` ends. -/
inductive Outcome where
  | ok
  | panic
  deriving DecidableEq, Repr

/-- The type `Options` of `flower.go`. A hook field says whether the function
is supplied (non-nil); what a supplied hook does when called is read from the
environment (`AttemptEnv`). -/
structure Options where
  RecoverDuration : Int
  BeforeServiceStart : Bool
  AfterServiceStop : Bool
  AfterServicePanic : Bool
  deriving DecidableEq, Repr

/-- The constant `defaultRecoverDuration = 3 * time.Second`, in nanoseconds. -/
def defaultRecoverDuration : Int := 3 * 1000000000

/-- The first statement of `Run`:
`if opts.RecoverDuration <= 0 { opts.RecoverDuration = defaultRecoverDuration }`. -/
def effectiveOptions (opts : Options) : Options :=
  if opts.RecoverDuration ≤ 0 then
    { opts with RecoverDuration := defaultRecoverDuration }
  else opts

/-- The calls made by the goroutine of one service, in program order. -/
inductive Event where
  /-- The call `opts.BeforeServiceStart(name)`. -/
  | beforeStart (name : String)
  /-- The call `service.Run(ctx)`. -/
  | invoke (name : String)
  /-- The normal return of `service.Run(ctx)`. -/
  | returned (name : String)
  /-- The call `opts.AfterServiceStop(name)`. -/
  | afterStop (name : String)
  /-- The call `opts.AfterServicePanic(name, debug.Stack())`. -/
  | afterPanic (name : String)
  /-- The call `tm.Reset(d)` followed by the `select` of `retry`. -/
  | pause (d : Int)
  deriving DecidableEq, Repr

/-- What the environment does during one call of the closure: the outcome of
each call the closure may make. An outcome is consulted only if the call is
made. -/
structure AttemptEnv where
  beforeStart : Outcome
  run : Outcome
  afterStop : Outcome
  afterPanic : Outcome
  deriving DecidableEq, Repr

/-- How one call of the closure `func() (retry bool)` ends: it returns the
named result `retry`, or a panic leaves it. -/
inductive AttemptResult where
  | retry (b : Bool)
  | escaped
  deriving DecidableEq, Repr

/-! ## One attempt: the closure passed to `retry` in `ServiceGroup.run` -/

/-- The deferred function of the closure when `recover()` gives a value:
`retry = true`, then `opts.AfterServicePanic` is called if it is not nil. A
panic of that hook is raised inside the deferred function and leaves the
closure. -/
def recovered (opts : Options) (name : String) (e : AttemptEnv) :
    List Event × AttemptResult :=
  if opts.AfterServicePanic then
    match e.afterPanic with
    | .ok => ([Event.afterPanic name], .retry true)
    | .panic => ([Event.afterPanic name], .escaped)
  else ([], .retry true)

/-- The closure up to the call of `service.Run(ctx)`: the nil-guarded call
of `opts.BeforeServiceStart`. The result is `none` when `service.Run` is
entered, and the result of the attempt when the hook panicked. -/
def fnEnter (opts : Options) (name : String) (e : AttemptEnv) :
    List Event × Option AttemptResult :=
  if opts.BeforeServiceStart then
    match e.beforeStart with
    | .ok => ([Event.beforeStart name, Event.invoke name], none)
    | .panic =>
      ([Event.beforeStart name] ++ (recovered opts name e).1, some (recovered opts name e).2)
  else ([Event.invoke name], none)

/-- The closure from the end of `service.Run(ctx)` on: after a normal return
the nil-guarded call of `opts.AfterServiceStop` and `return retry` (the named
result is still `false`); after a panic the deferred function. -/
def fnLeave (opts : Options) (name : String) (e : AttemptEnv) :
    List Event × AttemptResult :=
  match e.run with
  | .panic => recovered opts name e
  | .ok =>
    if opts.AfterServiceStop then
      match e.afterStop with
      | .ok => ([Event.returned name, Event.afterStop name], .retry false)
      | .panic =>
        ([Event.returned name, Event.afterStop name] ++ (recovered opts name e).1,
          (recovered opts name e).2)
    else ([Event.returned name], .retry false)

/-- One call of the closure that `runService` passes to `retry`. -/
def runServiceFn (opts : Options) (name : String) (e : AttemptEnv) :
    List Event × AttemptResult :=
  match fnEnter opts name e with
  | (ev, some r) => (ev, r)
  | (ev, none) => (ev ++ (fnLeave opts name e).1, (fnLeave opts name e).2)

/-! ## The retry loop -/

/-- Which case of the `select` in `retry` is taken. -/
inductive PauseOutcome where
  /-- The timer fires first: `case <-tm.C:`. -/
  | timer
  /-- The stop signal is seen first: `case <-ctx.Done(): return`. -/
  | stop
  deriving DecidableEq, Repr

/-- How `retry` ends: it returns, or a panic of `fn` passes through it. -/
inductive LoopResult where
  | returned
  | panicked
  deriving DecidableEq, Repr

/-- The function `retry(ctx, intv, fn)`. `fn n` is the call number `n` of the
closure (from `0`) and `race n` the outcome of the `select` that follows it.
The loop `for fn() { tm.Reset(intv); select { ... } }` need not end, so the
number of calls of `fn` is bounded by `fuel`; `none` means the bound was
reached. The timer is created stopped and drained, so no `select` sees a stale
tick. -/
def retry (race : Nat → PauseOutcome) (intv : Int)
    (fn : Nat → List Event × AttemptResult) :
    Nat → Nat → Option (List Event × LoopResult)
  | 0, _ => none
  | fuel + 1, n =>
    match fn n with
    | (ev, .escaped) => some (ev, .panicked)
    | (ev, .retry false) => some (ev, .returned)
    | (ev, .retry true) =>
      match race n with
      | .stop => some (ev ++ [Event.pause intv], .returned)
      | .timer =>
        match retry race intv fn fuel (n + 1) with
        | some (rest, r) => some (ev ++ [Event.pause intv] ++ rest, r)
        | none => none

/-- The body of `runService` for one service:
`retry(ctx, opts.RecoverDuration, func() (retry bool) {...})`. -/
def runService (opts : Options) (name : String) (env : Nat → AttemptEnv)
    (race : Nat → PauseOutcome) (fuel : Nat) : Option (List Event × LoopResult) :=
  retry race opts.RecoverDuration (fun n => runServiceFn opts name (env n)) fuel 0

/-- One service goroutine as started by `Run`: `Run` first replaces a
non-positive `RecoverDuration` and passes the changed options down to
`ServiceGroup.run`. -/
def runServiceUnderRun (opts : Options) (name : String) (env : Nat → AttemptEnv)
    (race : Nat → PauseOutcome) (fuel : Nat) : Option (List Event × LoopResult) :=
  runService (effectiveOptions opts) name env race fuel

/-- The expected pause of `Run`: `opts.RecoverDuration` when it is positive,
three seconds otherwise. -/
def expectedPause (opts : Options) : Int :=
  if 0 < opts.RecoverDuration then opts.RecoverDuration else 3000000000

/-- The list `block` repeated `k` times. -/
def cycles (block : List Event) : Nat → List Event
  | 0 => []
  | k + 1 => block ++ cycles block k

/-- The event is a call of one of the three hooks. -/
def Event.isHookCall : Event → Bool
  | .beforeStart _ => true
  | .afterStop _ => true
  | .afterPanic _ => true
  | _ => false

/-- The events of a call of a hook that may be nil: one event when the hook
is supplied, none otherwise. -/
def hookCall (supplied : Bool) (e : Event) : List Event :=
  if supplied then [e] else []

/-! ## A whole call of `Run`: the goroutines and their interleaving -/

/-- The arguments of `Run` other than the context: the options and the
groups. A `ServiceGroup` is a map from names to services; a group is given by
the list of its keys. -/
structure Config where
  opts : Options
  groups : List (List String)

/-- Where the goroutine `runService(name, service)` is. -/
inductive SvcStatus where
  /-- At the head of `for fn()`: the closure is called next. A goroutine
  that was not yet scheduled is here too. -/
  | loop
  /-- Inside `service.Run(ctx)`. -/
  | running
  /-- In the `select` of `retry`, after `tm.Reset(intv)`. -/
  | pausing
  /-- The call of `retry` has returned, or `runtime.Goexit()` has unwound
  it; the deferred `wg.Done()` is next. -/
  | exited
  /-- A panic has left the closure and unwinds `retry` and `runService`; the
  deferred `wg.Done()` is next. -/
  | unwinding
  /-- Has called `wg.Done()` and ended. -/
  | done
  /-- Has called `wg.Done()` while panicking; the runtime ends the process
  next. -/
  | dead
  deriving DecidableEq, Repr

/-- Where the goroutine that `Run` starts for one group is. -/
inductive RunnerStatus where
  /-- Inside `sg.run(ctx, opts)`, up to its `wg.Wait()`. -/
  | waiting
  /-- The call `sg.run(ctx, opts)` has returned; `cancel()` is next. -/
  | drained
  /-- Has called `cancel()`; `wg.Done()` is next. -/
  | cancelled
  /-- Has called `wg.Done()` and ended. -/
  | done
  deriving DecidableEq, Repr

/-- The state of one call of `Run`. -/
structure State where
  /-- The context passed to `Run` is cancelled. -/
  root : Bool
  /-- The context `gctx` made by `context.WithCancel(context.Background())`
  in iteration `i` of the loop of `Run` is cancelled. -/
  derived : Nat → Bool
  svc : Nat → String → SvcStatus
  runner : Nat → RunnerStatus
  /-- The call of `Run` has returned to its caller. -/
  returned : Bool
  /-- The process was ended by an uncaught panic. -/
  crashed : Bool
  /-- Every call made by a service goroutine so far, with the index of its
  group, oldest first. -/
  log : List (Nat × Event)
  /-- History of the exits: the goroutine of the service has left `retry`
  through `case <-ctx.Done(): return`. Nothing reads it. -/
  leftInPause : Nat → String → Bool

/-- The keys of the group with index `g`. -/
def members (cfg : Config) (g : Nat) : List String :=
  cfg.groups.getD g []

/-- The context that group `g` runs under is cancelled:
`if i == len(groups)-1 { gctx = ctx }`. -/
def ctxDone (cfg : Config) (s : State) (g : Nat) : Bool :=
  if g + 1 = cfg.groups.length then s.root else s.derived g

/-- The goroutine of the service is out of its call of `retry`. -/
def SvcStatus.outOfLoop : SvcStatus → Bool
  | .exited => true
  | .unwinding => true
  | .done => true
  | .dead => true
  | _ => false

/-- The goroutine of the service has called `wg.Done()`. -/
def SvcStatus.finished : SvcStatus → Bool
  | .done => true
  | .dead => true
  | _ => false

/-- The state at the call of `Run`: nothing is cancelled, every goroutine is
at its start. -/
def init : State where
  root := false
  derived := fun _ => false
  svc := fun _ _ => .loop
  runner := fun _ => .waiting
  returned := false
  crashed := false
  log := []
  leftInPause := fun _ _ => false

/-- What `retry` does with the result of the closure: with `false` the loop
ends and `retry` returns, with `true` it resets the timer and enters the
`select`, and a panic passes through. -/
def afterFn (intv : Int) : AttemptResult → SvcStatus × List Event
  | .retry false => (.exited, [])
  | .retry true => (.pausing, [Event.pause intv])
  | .escaped => (.unwinding, [])

/-- Move one service goroutine and append its calls to the log. -/
def State.move (s : State) (g : Nat) (name : String) (st : SvcStatus)
    (ev : List Event) : State :=
  { s with
    svc := fun g' n' => if g' = g ∧ n' = name then st else s.svc g' n'
    log := s.log ++ ev.map (fun e => (g, e)) }

/-- Record that the goroutine of a service has left `retry` through
`case <-ctx.Done(): return`. -/
def State.mark (s : State) (g : Nat) (name : String) : State :=
  { s with
    leftInPause := fun g' n' => if g' = g ∧ n' = name then true else s.leftInPause g' n' }

/-- The call inside the closure that ends the goroutine with
`runtime.Goexit()`. -/
inductive GoexitSite where
  /-- The hook `opts.BeforeServiceStart`. -/
  | beforeStart
  /-- The service, inside `service.Run(ctx)`. -/
  | run
  /-- The hook `opts.AfterServiceStop`. -/
  | afterStop
  /-- The hook `opts.AfterServicePanic`. -/
  | afterPanic
  deriving DecidableEq, Repr

/-- The calls of a closure call that ends with `runtime.Goexit()` before
`service.Run` is entered: in `BeforeServiceStart`, or in `AfterServicePanic`
after a panic of `BeforeServiceStart`. The result is `none` when the closure
makes no such call. -/
def goexitEnter (opts : Options) (name : String) (e : AttemptEnv) :
    GoexitSite → Option (List Event)
  | .beforeStart =>
    if opts.BeforeServiceStart = true then some [Event.beforeStart name] else none
  | .afterPanic =>
    if opts.BeforeServiceStart = true ∧ e.beforeStart = .panic
        ∧ opts.AfterServicePanic = true then
      some [Event.beforeStart name, Event.afterPanic name]
    else none
  | _ => none

/-- The calls of a closure that is inside `service.Run` and ends with
`runtime.Goexit()`: in `service.Run` itself, in `AfterServiceStop` after a
normal return, or in `AfterServicePanic` after a panic of `service.Run` or of
`AfterServiceStop`. The result is `none` when the closure makes no such
call. -/
def goexitLeave (opts : Options) (name : String) (e : AttemptEnv) :
    GoexitSite → Option (List Event)
  | .run => some []
  | .afterStop =>
    if e.run = .ok ∧ opts.AfterServiceStop = true then
      some [Event.returned name, Event.afterStop name]
    else none
  | .afterPanic =>
    if opts.AfterServicePanic = true then
      match e.run with
      | .panic => some [Event.afterPanic name]
      | .ok =>
        if opts.AfterServiceStop = true ∧ e.afterStop = .panic then
          some [Event.returned name, Event.afterStop name, Event.afterPanic name]
        else none
    else none
  | .beforeStart => none

/-- The steps of the goroutines and of the environment. The outcomes of the
calls made in a step come with it. -/
inductive Action where
  /-- The caller cancels the context passed to `Run`. -/
  | cancelRoot
  /-- A service goroutine calls the closure, which runs up to its call of
  `service.Run(ctx)`. -/
  | enter (g : Nat) (name : String) (e : AttemptEnv)
  /-- The call `service.Run(ctx)` ends as `e.run` says and the closure runs
  to its end. -/
  | leave (g : Nat) (name : String) (e : AttemptEnv)
  /-- The `select` of `retry` takes `case <-tm.C`. -/
  | timer (g : Nat) (name : String)
  /-- The `select` of `retry` takes `case <-ctx.Done()`. -/
  | stop (g : Nat) (name : String)
  /-- The call named by `site` ends the goroutine with `runtime.Goexit()`:
  the deferred function of the closure gets `nil` from `recover()` and calls
  no hook, and the deferred calls of `retry` and `runService` run. -/
  | goexit (g : Nat) (name : String) (e : AttemptEnv) (site : GoexitSite)
  /-- The deferred `wg.Done()` of `runService`. -/
  | serviceDone (g : Nat) (name : String)
  /-- The `wg.Wait()` of `sg.run` returns, and `sg.run` with it. -/
  | drained (g : Nat)
  /-- The goroutine of group `g` calls `cancel()`, which is `prevCancel`. -/
  | cancel (g : Nat)
  /-- The goroutine of group `g` calls `wg.Done()`. -/
  | groupDone (g : Nat)
  /-- The `wg.Wait()` of `Run` returns, and `Run` with it. -/
  | mainReturn
  /-- The runtime ends the process for the uncaught panic of a service
  goroutine. -/
  | abort (g : Nat) (name : String)

/-- One step of a call `Run(ctx, cfg.opts, cfg.groups...)`; `none` when the
step is not enabled. The closure sees the options as changed by the first
statement of `Run`. -/
def step (cfg : Config) (s : State) : Action → Option State
  | .cancelRoot =>
    if s.crashed = false then some { s with root := true } else none
  | .enter g name e =>
    if s.crashed = false ∧ name ∈ members cfg g ∧ s.svc g name = .loop then
      match fnEnter (effectiveOptions cfg.opts) name e with
      | (ev, none) => some (s.move g name .running ev)
      | (ev, some r) =>
        some (s.move g name (afterFn (effectiveOptions cfg.opts).RecoverDuration r).1
          (ev ++ (afterFn (effectiveOptions cfg.opts).RecoverDuration r).2))
    else none
  | .leave g name e =>
    if s.crashed = false ∧ name ∈ members cfg g ∧ s.svc g name = .running then
      some (s.move g name
        (afterFn (effectiveOptions cfg.opts).RecoverDuration
          (fnLeave (effectiveOptions cfg.opts) name e).2).1
        ((fnLeave (effectiveOptions cfg.opts) name e).1 ++
          (afterFn (effectiveOptions cfg.opts).RecoverDuration
            (fnLeave (effectiveOptions cfg.opts) name e).2).2))
    else none
  | .timer g name =>
    if s.crashed = false ∧ name ∈ members cfg g ∧ s.svc g name = .pausing then
      some (s.move g name .loop [])
    else none
  | .stop g name =>
    if s.crashed = false ∧ name ∈ members cfg g ∧ s.svc g name = .pausing
        ∧ ctxDone cfg s g = true then
      some ((s.move g name .exited []).mark g name)
    else none
  | .goexit g name e site =>
    if s.crashed = false ∧ name ∈ members cfg g ∧ s.svc g name = .loop then
      match goexitEnter (effectiveOptions cfg.opts) name e site with
      | some ev => some (s.move g name .exited ev)
      | none => none
    else if s.crashed = false ∧ name ∈ members cfg g ∧ s.svc g name = .running then
      match goexitLeave (effectiveOptions cfg.opts) name e site with
      | some ev => some (s.move g name .exited ev)
      | none => none
    else none
  | .serviceDone g name =>
    if s.crashed = false ∧ name ∈ members cfg g ∧ s.svc g name = .exited then
      some (s.move g name .done [])
    else if s.crashed = false ∧ name ∈ members cfg g ∧ s.svc g name = .unwinding then
      some (s.move g name .dead [])
    else none
  | .drained g =>
    if s.crashed = false ∧ g < cfg.groups.length ∧ s.runner g = .waiting
        ∧ ∀ name ∈ members cfg g, (s.svc g name).finished = true then
      some { s with runner := fun g' => if g' = g then .drained else s.runner g' }
    else none
  | .cancel g =>
    if s.crashed = false ∧ g < cfg.groups.length ∧ s.runner g = .drained then
      some { s with
        runner := fun g' => if g' = g then .cancelled else s.runner g'
        derived := fun i => if i + 1 = g then true else s.derived i }
    else none
  | .groupDone g =>
    if s.crashed = false ∧ g < cfg.groups.length ∧ s.runner g = .cancelled then
      some { s with runner := fun g' => if g' = g then .done else s.runner g' }
    else none
  | .mainReturn =>
    if s.crashed = false ∧ s.returned = false
        ∧ ∀ g < cfg.groups.length, s.runner g = .done then
      some { s with returned := true }
    else none
  | .abort g name =>
    if s.crashed = false ∧ name ∈ members cfg g ∧ s.svc g name = .dead then
      some { s with crashed := true }
    else none

/-- Run a list of steps from a state; every step must be enabled and
permitted by `allowed`. -/
def exec (cfg : Config) (allowed : State → Action → Bool) :
    State → List Action → Option State
  | s, [] => some s
  | s, a :: rest =>
    if allowed s a = true then
      match step cfg s a with
      | some s' => exec cfg allowed s' rest
      | none => none
    else none

/-- A state that some execution of `Run` permitted by `allowed` reaches. -/
def Reachable (cfg : Config) (allowed : State → Action → Bool) (s : State) : Prop :=
  ∃ acts, exec cfg allowed init acts = some s

/-- No restriction on the environment. -/
def anyAct : State → Action → Bool :=
  fun _ _ => true

/-- The hook `AfterServicePanic`, if supplied, returns normally when it is
called. -/
def panicHookReturns (opts : Options) : State → Action → Bool
  | _, .enter _ _ e => !opts.AfterServicePanic || e.afterPanic = .ok
  | _, .leave _ _ e => !opts.AfterServicePanic || e.afterPanic = .ok
  | _, .goexit _ _ _ site => site ≠ .afterPanic
  | _, _ => true

/-- The supplied hooks return normally in one call of the closure. -/
def AttemptEnv.hooksOk (opts : Options) (e : AttemptEnv) : Bool :=
  (!opts.BeforeServiceStart || e.beforeStart = .ok)
    && (!opts.AfterServiceStop || e.afterStop = .ok)
    && (!opts.AfterServicePanic || e.afterPanic = .ok)

/-- The supplied hooks return normally whenever they are called. -/
def hooksReturn (opts : Options) : State → Action → Bool
  | _, .enter _ _ e => e.hooksOk opts
  | _, .leave _ _ e => e.hooksOk opts
  | _, .goexit _ _ _ site => site = .run
  | _, _ => true

/-- No service and no hook ends its goroutine with `runtime.Goexit()`. -/
def noGoexit : State → Action → Bool
  | _, .goexit _ _ _ _ => false
  | _, _ => true

/-- A call of `service.Run(ctx)` returns normally only when `ctx` is
cancelled; it may panic at any time. -/
def servicesWait (cfg : Config) : State → Action → Bool
  | s, .leave g _ e => e.run = .panic || ctxDone cfg s g
  | s, .goexit g _ e site =>
    site = .beforeStart || site = .run || e.run = .panic || ctxDone cfg s g
  | _, _ => true

/-- Services wait for their stop signal, the panic hook returns, and nothing
calls `runtime.Goexit()`. -/
def disciplined (cfg : Config) (s : State) (a : Action) : Bool :=
  servicesWait cfg s a && panicHookReturns cfg.opts s a && noGoexit s a

/-- Services wait for their stop signal and the panic hook returns;
`runtime.Goexit()` is permitted. -/
def waitingHooked (cfg : Config) (s : State) (a : Action) : Bool :=
  servicesWait cfg s a && panicHookReturns cfg.opts s a

/-- Services wait for their stop signal and nothing calls
`runtime.Goexit()`; the panic hook may panic. -/
def waitingPlain (cfg : Config) (s : State) (a : Action) : Bool :=
  servicesWait cfg s a && noGoexit s a

/-- The group indices of the normal returns of `service.Run` in a log, in
the order of the log. -/
def stopGroups : List (Nat × Event) → List Nat
  | [] => []
  | (g, .returned _) :: rest => g :: stopGroups rest
  | _ :: rest => stopGroups rest

/-- The log holds a normal return of `service.Run` for the service `name` of
group `g`. -/
def stoppedIn (log : List (Nat × Event)) (g : Nat) (name : String) : Bool :=
  log.any (fun p => p.1 = g && p.2 = Event.returned name)

/-- The steps of one call of the closure by the goroutine of a service:
the step up to the call of `service.Run`, and the step from its end on when
the call was made. -/
def attemptSteps (opts : Options) (g : Nat) (name : String) (e : AttemptEnv) :
    List Action :=
  match (fnEnter opts name e).2 with
  | some _ => [.enter g name e]
  | none => [.enter g name e, .leave g name e]

/-- The steps of the goroutine of one service that follow the oracles of the
sequential loop, for at most `fuel` attempts from attempt `n` on. -/
def schedule (opts : Options) (g : Nat) (name : String) (env : Nat → AttemptEnv)
    (race : Nat → PauseOutcome) : Nat → Nat → List Action
  | 0, _ => []
  | fuel + 1, n =>
    match (runServiceFn opts name (env n)).2 with
    | .retry true =>
      match race n with
      | .stop => attemptSteps opts g name (env n) ++ [.stop g name]
      | .timer =>
        attemptSteps opts g name (env n) ++
          .timer g name :: schedule opts g name env race fuel (n + 1)
    | _ => attemptSteps opts g name (env n)

/-- The status in which the goroutine of a service leaves `retry` when the
sequential loop ends. -/
def LoopResult.status : LoopResult → SvcStatus
  | .returned => .exited
  | .panicked => .unwinding

/-- The facts about the cascade that hold in every state of every execution,
whatever the services and hooks do: a derived context is cancelled only by
the goroutine of the next group, after its `sg.run` returned; `sg.run` returns
only when every service goroutine of the group has called `wg.Done()`; `Run`
returns only when every group goroutine has called `wg.Done()`. -/
structure Cascade (cfg : Config) (s : State) : Prop where
  derived_by_next : ∀ g, s.derived g = true →
    s.runner (g + 1) = .cancelled ∨ s.runner (g + 1) = .done
  drained_finished : ∀ g, s.runner g ≠ .waiting →
    ∀ name ∈ members cfg g, (s.svc g name).finished = true
  returned_done : s.returned = true → ∀ g < cfg.groups.length, s.runner g = .done

/-- No panic has left a closure: the process has not crashed and no service
goroutine is unwinding or dead. -/
structure NoEscape (s : State) : Prop where
  not_crashed : s.crashed = false
  not_unwinding : ∀ g name, s.svc g name ≠ .unwinding
  not_dead : ∀ g name, s.svc g name ≠ .dead

/-- The facts about the order of shutdown that hold in every state of an
execution in which services return only after their stop signal and no panic
leaves a closure: a service goroutine is out of its retry loop only if the
context of its group is cancelled; a normal return of `service.Run` is logged
for a group only if the context of that group is cancelled; when no group is
empty, the group indices of the logged normal returns never increase along
the log. -/
structure Ordered (cfg : Config) (s : State) : Prop where
  left_after_stop : ∀ g name, name ∈ members cfg g →
    (s.svc g name).outOfLoop = true → ctxDone cfg s g = true
  stops_after_stop : ∀ g ∈ stopGroups s.log, ctxDone cfg s g = true
  stops_ordered : (∀ grp ∈ cfg.groups, grp ≠ []) →
    (stopGroups s.log).Pairwise (fun a b => b ≤ a)

/-- A service goroutine that is out of its retry loop has logged a normal
return of `service.Run` or has left the loop through `case <-ctx.Done()`. It
holds in every state of an execution in which no panic leaves a closure and
nothing calls `runtime.Goexit()`. -/
def Recorded (s : State) : Prop :=
  ∀ g name, (s.svc g name).outOfLoop = true →
    stoppedIn s.log g name = true ∨ s.leftInPause g name = true

/-- Nothing is undone between `s` and `s'`: the process has not crashed, a
service goroutine that was out of its loop, or had called `wg.Done()`, still
is, a group goroutine that had ended still has, `Run` has returned if it
had, no service or hook was called and the context passed to `Run` was not
touched. -/
structure Advances (s s' : State) : Prop where
  not_crashed : s'.crashed = false
  out : ∀ g n, (s.svc g n).outOfLoop = true → (s'.svc g n).outOfLoop = true
  fin : ∀ g n, (s.svc g n).finished = true → (s'.svc g n).finished = true
  run : ∀ g, s.runner g = .done → s'.runner g = .done
  ret : s.returned = true → s'.returned = true
  log_eq : s'.log = s.log
  root_eq : s'.root = s.root

/-- Some steps, permitted also when services wait for their stop signal,
lead from `s` to `s'` and undo nothing. -/
def Leads (cfg : Config) (s s' : State) : Prop :=
  (∃ acts, exec cfg (disciplined cfg) s acts = some s') ∧ Advances s s'

/-! ## Example runs -/

/-- An environment in which every call returns normally. -/
def calm : AttemptEnv := ⟨.ok, .ok, .ok, .ok⟩

/-- An environment in which `service.Run` panics and the hooks return. -/
def faulty : AttemptEnv := ⟨.ok, .panic, .ok, .ok⟩

/-- One group with one service, no hooks, a pause of one millisecond. -/
def soloConfig : Config := ⟨⟨1000000, false, false, false⟩, [["S1"]]⟩

/-- The service of `soloConfig` returns at once, the context passed to `Run`
is never cancelled, and `Run` returns. -/
def soloEarlyReturn : List Action :=
  [.enter 0 "S1" calm, .leave 0 "S1" calm, .serviceDone 0 "S1",
    .drained 0, .cancel 0, .groupDone 0, .mainReturn]

/-- The state after `soloEarlyReturn`. -/
def soloReturned : State :=
  (exec soloConfig anyAct init soloEarlyReturn).getD init

/-- Two groups with one service each, no hooks. -/
def pairConfig : Config := ⟨⟨1000000, false, false, false⟩, [["S1"], ["S2"]]⟩

/-- The service `S2` of the last group panics on its first invocation; the
context passed to `Run` is cancelled during the pause and wins it, so `S2` is
not invoked again; group 1 drains and cancels the context of group 0, whose
service `S1`, running since the start, then returns. -/
def pairPanicThenStop : List Action :=
  [.enter 0 "S1" calm, .enter 1 "S2" faulty, .leave 1 "S2" faulty, .cancelRoot,
    .stop 1 "S2", .serviceDone 1 "S2", .drained 1, .cancel 1,
    .leave 0 "S1" calm]

/-- The state after `pairPanicThenStop`. -/
def pairStopped : State :=
  (exec pairConfig (disciplined pairConfig) init pairPanicThenStop).getD init

/-- Both services of `pairConfig` run until the context passed to `Run` is
cancelled; `S2` returns, group 1 drains and cancels the context of group 0,
and `S1` returns. -/
def pairOrderly : List Action :=
  [.enter 0 "S1" calm, .enter 1 "S2" calm, .cancelRoot, .leave 1 "S2" calm,
    .serviceDone 1 "S2", .drained 1, .cancel 1, .leave 0 "S1" calm]

/-- The state after `pairOrderly`. -/
def pairOrderlyEnd : State :=
  (exec pairConfig (disciplined pairConfig) init pairOrderly).getD init

/-- Three groups with one service each, no hooks. -/
def tripleConfig : Config :=
  ⟨⟨1000000, false, false, false⟩, [["S1"], ["S2"], ["S3"]]⟩

/-- Three groups with one service each and the hook `AfterServicePanic`. -/
def tripleHooked : Config :=
  ⟨⟨1000000, false, false, true⟩, [["S1"], ["S2"], ["S3"]]⟩

/-- An environment in which `service.Run` panics and `AfterServicePanic`
panics in turn. -/
def doubleFault : AttemptEnv := ⟨.ok, .panic, .ok, .panic⟩

/-- The service `S2` of the middle group of `tripleConfig` ends its goroutine
with `runtime.Goexit()` while no context is cancelled; group 1 drains and
cancels the context of group 0, `S1` returns; only then is the context passed
to `Run` cancelled and `S3` returns. -/
def tripleGoexit : List Action :=
  [.enter 0 "S1" calm, .enter 1 "S2" calm, .enter 2 "S3" calm,
    .goexit 1 "S2" calm .run, .serviceDone 1 "S2", .drained 1, .cancel 1,
    .leave 0 "S1" calm, .cancelRoot, .leave 2 "S3" calm]

/-- The state after `tripleGoexit`. -/
def tripleGoexitEnd : State :=
  (exec tripleConfig (waitingHooked tripleConfig) init tripleGoexit).getD init

/-- The service `S2` of the middle group of `tripleHooked` panics and the
hook `AfterServicePanic` panics in turn; before the runtime ends the process
the deferred `wg.Done()` lets group 1 drain and cancel the context of group
0, `S1` returns, the context passed to `Run` is cancelled and `S3` returns. -/
def tripleHookPanic : List Action :=
  [.enter 0 "S1" calm, .enter 1 "S2" calm, .enter 2 "S3" calm,
    .leave 1 "S2" doubleFault, .serviceDone 1 "S2", .drained 1, .cancel 1,
    .leave 0 "S1" calm, .cancelRoot, .leave 2 "S3" calm]

/-- The state after `tripleHookPanic`. -/
def tripleHookPanicEnd : State :=
  (exec tripleHooked (waitingPlain tripleHooked) init tripleHookPanic).getD init

/-- The service of `soloConfig` ends its goroutine with `runtime.Goexit()`
and `Run` returns. -/
def soloGoexit : List Action :=
  [.enter 0 "S1" calm, .goexit 0 "S1" calm .run, .serviceDone 0 "S1",
    .drained 0, .cancel 0, .groupDone 0, .mainReturn]

/-- The state after `soloGoexit`. -/
def soloGoexitEnd : State :=
  (exec soloConfig (waitingHooked soloConfig) init soloGoexit).getD init

/-- One group with one service and the hook `AfterServicePanic`. -/
def soloHooked : Config := ⟨⟨1000000, false, false, true⟩, [["S1"]]⟩

/-- The service of `soloHooked` panics, the hook `AfterServicePanic` panics
in turn, and `Run` returns before the runtime ends the process. -/
def soloHookPanic : List Action :=
  [.enter 0 "S1" calm, .leave 0 "S1" doubleFault, .serviceDone 0 "S1",
    .drained 0, .cancel 0, .groupDone 0, .mainReturn]

/-- The state after `soloHookPanic`. -/
def soloHookPanicEnd : State :=
  (exec soloHooked (waitingPlain soloHooked) init soloHookPanic).getD init

/-- One group, which is empty. -/
def emptyConfig : Config := ⟨⟨1000000, false, false, false⟩, [[]]⟩

/-- The state of `emptyConfig` after the group drained and `Run` returned. -/
def emptyReturned : State :=
  (exec emptyConfig (disciplined emptyConfig) init
    [.drained 0, .cancel 0, .groupDone 0, .mainReturn]).getD init

/-- The run `pairPanicThenStop` continued until `Run` returns. -/
def pairShutdown : List Action :=
  pairPanicThenStop ++
    [.groupDone 1, .serviceDone 0 "S1", .drained 0, .cancel 0, .groupDone 0, .mainReturn]

/-- The state after `pairShutdown`. -/
def pairReturned : State :=
  (exec pairConfig (disciplined pairConfig) init pairShutdown).getD init

end Flower

/-! ## Package `smesh` -/

namespace Smesh

open Flower (Event AttemptEnv AttemptResult PauseOutcome LoopResult Outcome)

/-- The type `Options` of `smesh.go`; a hook field says whether the function
is supplied (non-nil). -/
structure Options where
  RecoverDuration : Int
  OnServiceStart : Bool
  OnServiceStop : Bool
  OnServicePanic : Bool
  deriving DecidableEq, Repr

/-- The constant `defaultRecoverDuration = 3 * time.Second`, in nanoseconds. -/
def defaultRecoverDuration : Int := 3 * 1000000000

/-- The first statement of `Run` in `smesh.go`. -/
def effectiveOptions (opts : Options) : Options :=
  if opts.RecoverDuration ≤ 0 then
    { opts with RecoverDuration := defaultRecoverDuration }
  else opts

/-- The deferred function of the closure in `smesh.go`: `retry = true`, then
`opts.OnServicePanic(name, debug.Stack())` with no nil check. Calling a nil
function panics, and that panic leaves the closure. -/
def recovered (opts : Options) (name : String) (e : AttemptEnv) :
    List Event × AttemptResult :=
  if opts.OnServicePanic then
    match e.afterPanic with
    | .ok => ([Event.afterPanic name], .retry true)
    | .panic => ([Event.afterPanic name], .escaped)
  else ([], .escaped)

/-- The closure of `smesh.go` up to the call of `service.Run(ctx)`. -/
def fnEnter (opts : Options) (name : String) (e : AttemptEnv) :
    List Event × Option AttemptResult :=
  if opts.OnServiceStart then
    match e.beforeStart with
    | .ok => ([Event.beforeStart name, Event.invoke name], none)
    | .panic =>
      ([Event.beforeStart name] ++ (recovered opts name e).1, some (recovered opts name e).2)
  else ([Event.invoke name], none)

/-- The closure of `smesh.go` from the end of `service.Run(ctx)` on. -/
def fnLeave (opts : Options) (name : String) (e : AttemptEnv) :
    List Event × AttemptResult :=
  match e.run with
  | .panic => recovered opts name e
  | .ok =>
    if opts.OnServiceStop then
      match e.afterStop with
      | .ok => ([Event.returned name, Event.afterStop name], .retry false)
      | .panic =>
        ([Event.returned name, Event.afterStop name] ++ (recovered opts name e).1,
          (recovered opts name e).2)
    else ([Event.returned name], .retry false)

/-- One call of the closure that `runService` passes to `retry` in
`smesh.go`. -/
def runServiceFn (opts : Options) (name : String) (e : AttemptEnv) :
    List Event × AttemptResult :=
  match fnEnter opts name e with
  | (ev, some r) => (ev, r)
  | (ev, none) => (ev ++ (fnLeave opts name e).1, (fnLeave opts name e).2)

/-- The function `retry(ctx, intv, fn)` of `smesh.go`. It takes `intv` and
does not use it: the timer is reset with `tm.Reset(time.Second * 3)`. -/
def retry (race : Nat → PauseOutcome) (_intv : Int)
    (fn : Nat → List Event × AttemptResult) :
    Nat → Nat → Option (List Event × LoopResult)
  | 0, _ => none
  | fuel + 1, n =>
    match fn n with
    | (ev, .escaped) => some (ev, .panicked)
    | (ev, .retry false) => some (ev, .returned)
    | (ev, .retry true) =>
      match race n with
      | .stop => some (ev ++ [Event.pause (1000000000 * 3)], .returned)
      | .timer =>
        match retry race _intv fn fuel (n + 1) with
        | some (rest, r) => some (ev ++ [Event.pause (1000000000 * 3)] ++ rest, r)
        | none => none

/-- The body of `runService` in `smesh.go`. -/
def runService (opts : Options) (name : String) (env : Nat → AttemptEnv)
    (race : Nat → PauseOutcome) (fuel : Nat) : Option (List Event × LoopResult) :=
  retry race opts.RecoverDuration (fun n => runServiceFn opts name (env n)) fuel 0

/-- One service goroutine as started by `Run` of `smesh.go`. -/
def runServiceUnderRun (opts : Options) (name : String) (env : Nat → AttemptEnv)
    (race : Nat → PauseOutcome) (fuel : Nat) : Option (List Event × LoopResult) :=
  runService (effectiveOptions opts) name env race fuel

/-- The options of `flower` that a value of the options of `smesh` is
identified with: `OnServiceStart` with `BeforeServiceStart`, `OnServiceStop`
with `AfterServiceStop`, `OnServicePanic` with `AfterServicePanic`. -/
def toFlower (opts : Options) : Flower.Options where
  RecoverDuration := opts.RecoverDuration
  BeforeServiceStart := opts.OnServiceStart
  AfterServiceStop := opts.OnServiceStop
  AfterServicePanic := opts.OnServicePanic

end Smesh

/-! # Theorems -/

namespace Flower

/-! ## The retry loop, sequentially -/

theorem retry_returns_false (race : Nat → PauseOutcome) (intv : Int)
    (fn : Nat → List Event × AttemptResult) (fuel n : Nat) (ev : List Event)
    (h : fn n = (ev, .retry false)) :
    retry race intv fn (fuel + 1) n = some (ev, .returned) := by
  simp [retry, h]

theorem retry_stop_wins (race : Nat → PauseOutcome) (intv : Int)
    (fn : Nat → List Event × AttemptResult) (fuel n : Nat) (ev : List Event)
    (h : fn n = (ev, .retry true)) (hr : race n = .stop) :
    retry race intv fn (fuel + 1) n = some (ev ++ [Event.pause intv], .returned) := by
  simp [retry, h, hr]

theorem retry_timer_wins (race : Nat → PauseOutcome) (intv : Int)
    (fn : Nat → List Event × AttemptResult) (fuel n : Nat) (ev : List Event)
    (h : fn n = (ev, .retry true)) (hr : race n = .timer) :
    retry race intv fn (fuel + 1) n =
      match retry race intv fn fuel (n + 1) with
      | some (rest, r) => some (ev ++ [Event.pause intv] ++ rest, r)
      | none => none := by
  simp [retry, h, hr]

theorem retry_cycles (race : Nat → PauseOutcome) (intv : Int)
    (fn : Nat → List Event × AttemptResult) (block : List Event) (fuel : Nat) :
    ∀ (k n : Nat),
      (∀ m, n ≤ m → m < n + k → fn m = (block, .retry true) ∧ race m = .timer) →
      retry race intv fn (k + fuel) n =
        match retry race intv fn fuel (n + k) with
        | some (rest, r) => some (cycles (block ++ [Event.pause intv]) k ++ rest, r)
        | none => none := by
  intro k
  induction k with
  | zero =>
    intro n _
    cases h : retry race intv fn fuel n with
    | none => simp [h]
    | some p => simp [h, cycles]
  | succ k ih =>
    intro n hk
    have h0 := hk n (Nat.le_refl n) (by omega)
    have hrest := ih (n + 1) (fun m h1 h2 => hk m (by omega) (by omega))
    have e1 : k + 1 + fuel = (k + fuel) + 1 := by omega
    have e2 : n + 1 + k = n + (k + 1) := by omega
    rw [e1, retry_timer_wins race intv fn (k + fuel) n block h0.1 h0.2, hrest, e2]
    cases h : retry race intv fn fuel (n + (k + 1)) with
    | none => simp
    | some p => simp [cycles, List.append_assoc]

theorem cycles_snoc (block : List Event) (k : Nat) :
    cycles block (k + 1) = cycles block k ++ block := by
  induction k with
  | zero => simp [cycles]
  | succ k ih =>
    show block ++ cycles block (k + 1) = (block ++ cycles block k) ++ block
    rw [ih, List.append_assoc]

theorem count_cycles (block : List Event) (e : Event) (k : Nat) :
    (cycles block k).count e = k * block.count e := by
  induction k with
  | zero => simp [cycles]
  | succ k ih => simp [cycles, List.count_append, ih]; ring

theorem filter_cycles (block : List Event) (p : Event → Bool) (k : Nat) :
    (cycles block k).filter p = cycles (block.filter p) k := by
  induction k with
  | zero => simp [cycles]
  | succ k ih => simp [cycles, List.filter_append, ih]

/-! ## One attempt -/

theorem attempt_of_panic (opts : Options) (name : String) (e : AttemptEnv)
    (hooks : e.hooksOk opts = true) (hrun : e.run = .panic) :
    runServiceFn opts name e =
      (hookCall opts.BeforeServiceStart (Event.beforeStart name) ++ [Event.invoke name]
        ++ hookCall opts.AfterServicePanic (Event.afterPanic name), .retry true) := by
  obtain ⟨rd, bs, as, ap⟩ := opts
  obtain ⟨o1, o2, o3, o4⟩ := e
  cases bs <;> cases as <;> cases ap <;> cases o1 <;> cases o3 <;> cases o4 <;>
    simp_all [AttemptEnv.hooksOk, runServiceFn, fnEnter, fnLeave, recovered, hookCall]

theorem attempt_of_return (opts : Options) (name : String) (e : AttemptEnv)
    (hooks : e.hooksOk opts = true) (hrun : e.run = .ok) :
    runServiceFn opts name e =
      (hookCall opts.BeforeServiceStart (Event.beforeStart name)
        ++ [Event.invoke name, Event.returned name]
        ++ hookCall opts.AfterServiceStop (Event.afterStop name), .retry false) := by
  obtain ⟨rd, bs, as, ap⟩ := opts
  obtain ⟨o1, o2, o3, o4⟩ := e
  cases bs <;> cases as <;> cases ap <;> cases o1 <;> cases o3 <;> cases o4 <;>
    simp_all [AttemptEnv.hooksOk, runServiceFn, fnEnter, fnLeave, recovered, hookCall]

/-- C6. A service that panics on its first `k` invocations and returns
normally on invocation `k + 1`, run by the retry loop with all three hooks
supplied (and returning normally) while the stop signal wins no pause race:
with fuel for `k + 1` attempts the loop returns, its trace is `k` times
(before-start, invoke, after-panic, pause) followed by (before-start, invoke,
return, after-stop), the hook calls are `k` times (before-start, after-panic)
followed by (before-start, after-stop), the service is invoked `k + 1` times,
before-start is called `k + 1` times, after-panic `k` times, after-stop once,
and the after-stop call is the last event. -/
theorem panics_then_returns_trace (opts : Options) (name : String)
    (env : Nat → AttemptEnv) (race : Nat → PauseOutcome) (k fuel : Nat)
    (hbs : opts.BeforeServiceStart = true) (has : opts.AfterServiceStop = true)
    (hap : opts.AfterServicePanic = true)
    (hooks : ∀ n ≤ k, (env n).hooksOk opts = true)
    (hpanic : ∀ n < k, (env n).run = .panic) (hret : (env k).run = .ok)
    (hrace : ∀ n < k, race n = .timer) (hfuel : k < fuel) :
    ∃ tr, runService opts name env race fuel = some (tr, .returned)
      ∧ tr = cycles [Event.beforeStart name, Event.invoke name, Event.afterPanic name,
              Event.pause opts.RecoverDuration] k
            ++ [Event.beforeStart name, Event.invoke name, Event.returned name,
              Event.afterStop name]
      ∧ tr.filter Event.isHookCall =
          cycles [Event.beforeStart name, Event.afterPanic name] k
            ++ [Event.beforeStart name, Event.afterStop name]
      ∧ tr.count (Event.invoke name) = k + 1
      ∧ tr.count (Event.beforeStart name) = k + 1
      ∧ tr.count (Event.afterPanic name) = k
      ∧ tr.count (Event.afterStop name) = 1
      ∧ tr.getLast? = some (Event.afterStop name) := by
  obtain ⟨extra, rfl⟩ : ∃ extra, fuel = k + (extra + 1) := ⟨fuel - k - 1, by omega⟩
  have hblock : ∀ m, 0 ≤ m → m < 0 + k →
      (fun n => runServiceFn opts name (env n)) m =
        ([Event.beforeStart name, Event.invoke name, Event.afterPanic name], .retry true)
        ∧ race m = .timer := by
    intro m _ hm
    have hm' : m < k := by omega
    refine ⟨?_, hrace m hm'⟩
    have := attempt_of_panic opts name (env m) (hooks m (by omega)) (hpanic m hm')
    simpa [hookCall, hbs, hap] using this
  have hlast : (fun n => runServiceFn opts name (env n)) (0 + k) =
      ([Event.beforeStart name, Event.invoke name, Event.returned name,
        Event.afterStop name], .retry false) := by
    have := attempt_of_return opts name (env k) (hooks k (Nat.le_refl k)) hret
    simpa [hookCall, hbs, has] using this
  refine ⟨_, ?_, rfl, ?_, ?_, ?_, ?_, ?_, ?_⟩
  · unfold runService
    rw [retry_cycles race opts.RecoverDuration _ _ (extra + 1) k 0 hblock,
      retry_returns_false race opts.RecoverDuration _ extra (0 + k) _ hlast]
    simp
  · simp [List.filter_append, filter_cycles, Event.isHookCall, List.filter]
  · simp [List.count_append, count_cycles, List.count_cons]
  · simp [List.count_append, count_cycles, List.count_cons]
  · simp [List.count_append, count_cycles, List.count_cons]
  · simp [List.count_append, count_cycles, List.count_cons]
  · simp [List.getLast?_append]

/-- C6, witness: Scenario A (`k = 1`), a service `S3` that panics once and
then returns. -/
theorem panics_then_returns_trace_witness :
    ∃ tr, runService ⟨1000000, true, true, true⟩ "S3"
          (fun n => ⟨.ok, if n = 0 then .panic else .ok, .ok, .ok⟩) (fun _ => .timer) 2
        = some (tr, .returned)
      ∧ tr = cycles [Event.beforeStart "S3", Event.invoke "S3", Event.afterPanic "S3",
              Event.pause 1000000] 1
            ++ [Event.beforeStart "S3", Event.invoke "S3", Event.returned "S3",
              Event.afterStop "S3"]
      ∧ tr.filter Event.isHookCall =
          cycles [Event.beforeStart "S3", Event.afterPanic "S3"] 1
            ++ [Event.beforeStart "S3", Event.afterStop "S3"]
      ∧ tr.count (Event.invoke "S3") = 1 + 1
      ∧ tr.count (Event.beforeStart "S3") = 1 + 1
      ∧ tr.count (Event.afterPanic "S3") = 1
      ∧ tr.count (Event.afterStop "S3") = 1
      ∧ tr.getLast? = some (Event.afterStop "S3") :=
  panics_then_returns_trace ⟨1000000, true, true, true⟩ "S3"
    (fun n => ⟨.ok, if n = 0 then .panic else .ok, .ok, .ok⟩) (fun _ => .timer) 1 2
    rfl rfl rfl (fun _ _ => rfl) (fun n hn => by simp [Nat.lt_one_iff.mp hn])
    (by simp) (fun _ _ => rfl) (by decide)

theorem mem_of_mem_cycles (block : List Event) (e : Event) (k : Nat)
    (h : e ∈ cycles block k) : e ∈ block := by
  induction k with
  | zero => simp [cycles] at h
  | succ k ih =>
    simp only [cycles, List.mem_append] at h
    rcases h with h | h
    · exact h
    · exact ih h

/-- C5. A service that panics on each of its first `k ≥ 1` invocations, with
the timer winning the first `k - 1` pauses and the stop signal winning the
pause after the `k`-th panic (hooks, where supplied, return normally): with
fuel for `k` attempts the loop returns, its trace is exactly `k` times
(before-start if supplied, invoke, after-panic if supplied, pause), so the
service is invoked exactly `k` times, before-start is called once per
invocation and not again, the trace ends with the pause, and neither a normal
return nor a call of after-stop occurs. -/
theorem stop_wins_after_kth_panic (opts : Options) (name : String)
    (env : Nat → AttemptEnv) (race : Nat → PauseOutcome) (k fuel : Nat)
    (hk : 1 ≤ k)
    (hooks : ∀ n < k, (env n).hooksOk opts = true)
    (hpanic : ∀ n < k, (env n).run = .panic)
    (hrace : ∀ n, n + 1 < k → race n = .timer)
    (hstop : race (k - 1) = .stop) (hfuel : k ≤ fuel) :
    ∃ tr, runService opts name env race fuel = some (tr, .returned)
      ∧ tr = cycles
          (hookCall opts.BeforeServiceStart (Event.beforeStart name) ++ [Event.invoke name]
            ++ hookCall opts.AfterServicePanic (Event.afterPanic name)
            ++ [Event.pause opts.RecoverDuration]) k
      ∧ tr.count (Event.invoke name) = k
      ∧ tr.count (Event.beforeStart name) = (if opts.BeforeServiceStart then k else 0)
      ∧ Event.afterStop name ∉ tr
      ∧ Event.returned name ∉ tr
      ∧ tr.getLast? = some (Event.pause opts.RecoverDuration) := by
  obtain ⟨j, rfl⟩ : ∃ j, k = j + 1 := ⟨k - 1, by omega⟩
  obtain ⟨extra, rfl⟩ : ∃ extra, fuel = j + (extra + 1) := ⟨fuel - j - 1, by omega⟩
  have hblock : ∀ m, 0 ≤ m → m < 0 + j →
      (fun n => runServiceFn opts name (env n)) m =
        (hookCall opts.BeforeServiceStart (Event.beforeStart name) ++ [Event.invoke name]
          ++ hookCall opts.AfterServicePanic (Event.afterPanic name), .retry true)
        ∧ race m = .timer := by
    intro m _ hm
    exact ⟨attempt_of_panic opts name (env m) (hooks m (by omega)) (hpanic m (by omega)),
      hrace m (by omega)⟩
  have hlast : (fun n => runServiceFn opts name (env n)) (0 + j) =
      (hookCall opts.BeforeServiceStart (Event.beforeStart name) ++ [Event.invoke name]
        ++ hookCall opts.AfterServicePanic (Event.afterPanic name), .retry true) := by
    have := attempt_of_panic opts name (env j) (hooks j (by omega)) (hpanic j (by omega))
    simpa using this
  have hstop' : race (0 + j) = .stop := by simpa using hstop
  refine ⟨_, ?_, rfl, ?_, ?_, ?_, ?_, ?_⟩
  · unfold runService
    rw [retry_cycles race opts.RecoverDuration _ _ (extra + 1) j 0 hblock,
      retry_stop_wins race opts.RecoverDuration _ extra (0 + j) _ hlast hstop']
    simp [cycles_snoc]
  · cases opts.BeforeServiceStart <;> cases opts.AfterServicePanic <;>
      simp [count_cycles, hookCall, List.count_cons]
  · cases opts.BeforeServiceStart <;> cases opts.AfterServicePanic <;>
      simp [count_cycles, hookCall, List.count_cons]
  · intro h
    have := mem_of_mem_cycles _ _ _ h
    cases opts.BeforeServiceStart <;> cases opts.AfterServicePanic <;>
      simp [hookCall] at this
  · intro h
    have := mem_of_mem_cycles _ _ _ h
    cases opts.BeforeServiceStart <;> cases opts.AfterServicePanic <;>
      simp [hookCall] at this
  · rw [cycles_snoc]
    cases opts.BeforeServiceStart <;> cases opts.AfterServicePanic <;>
      simp [List.getLast?_append, hookCall]

/-- C5, witness: a service that panics on every invocation, no hooks, and a
stop signal that is already triggered when the loop is entered (`k = 1`). -/
theorem stop_wins_after_kth_panic_witness :
    ∃ tr, runService ⟨1000000, false, false, false⟩ "S3"
          (fun _ => ⟨.ok, .panic, .ok, .ok⟩) (fun _ => .stop) 1
        = some (tr, .returned)
      ∧ tr = cycles
          (hookCall false (Event.beforeStart "S3") ++ [Event.invoke "S3"]
            ++ hookCall false (Event.afterPanic "S3")
            ++ [Event.pause 1000000]) 1
      ∧ tr.count (Event.invoke "S3") = 1
      ∧ tr.count (Event.beforeStart "S3") = (if false then 1 else 0)
      ∧ Event.afterStop "S3" ∉ tr
      ∧ Event.returned "S3" ∉ tr
      ∧ tr.getLast? = some (Event.pause 1000000) :=
  stop_wins_after_kth_panic ⟨1000000, false, false, false⟩ "S3"
    (fun _ => ⟨.ok, .panic, .ok, .ok⟩) (fun _ => .stop) 1 1
    (by decide) (fun _ _ => rfl) (fun _ _ => rfl) (fun n hn => by omega) rfl (by decide)

theorem retry_trace_starts_with_attempt (race : Nat → PauseOutcome) (intv : Int)
    (fn : Nat → List Event × AttemptResult) (fuel n : Nat) (tr : List Event)
    (r : LoopResult) (h : retry race intv fn (fuel + 1) n = some (tr, r)) :
    (fn n).1 <+: tr := by
  rcases hfn : fn n with ⟨ev, res⟩
  rcases res with b | _
  · cases b
    · simp [retry, hfn] at h
      simp [h.1]
    · cases hr : race n
      · cases hrest : retry race intv fn fuel (n + 1) with
        | none => simp [retry, hfn, hr, hrest] at h
        | some p =>
          simp [retry, hfn, hr, hrest] at h
          rw [← h.1]
          exact ⟨Event.pause intv :: p.1, by simp⟩
      · simp [retry, hfn, hr] at h
        rw [← h.1]
        exact ⟨[Event.pause intv], rfl⟩
  · simp [retry, hfn] at h
    simp [h.1]

/-- C10 as stated fails, with all three hooks supplied. (1) When
`BeforeServiceStart` panics and `AfterServicePanic` panics in turn, the
attempt does not report `retry = true`: the second panic leaves the closure.
(2) The same when `AfterServiceStop` panics after a normal return of the
service. (3) The retry loop then ends by that panic. (4) A service that
returned normally is not invoked again although `AfterServiceStop` panicked
and the timer won the pause that followed: `BeforeServiceStart` panics in the
next attempt and the stop signal wins the second pause. -/
theorem hook_panic_not_always_retried :
    runServiceFn ⟨1000000, true, true, true⟩ "S1" ⟨.panic, .ok, .ok, .panic⟩ =
        ([Event.beforeStart "S1", Event.afterPanic "S1"], .escaped)
    ∧ runServiceFn ⟨1000000, true, true, true⟩ "S1" ⟨.ok, .ok, .panic, .panic⟩ =
        ([Event.beforeStart "S1", Event.invoke "S1", Event.returned "S1",
          Event.afterStop "S1", Event.afterPanic "S1"], .escaped)
    ∧ runService ⟨1000000, true, true, true⟩ "S1" (fun _ => ⟨.panic, .ok, .ok, .panic⟩)
        (fun _ => .timer) 1 =
        some ([Event.beforeStart "S1", Event.afterPanic "S1"], .panicked)
    ∧ runService ⟨1000000, true, true, true⟩ "S1"
        (fun n => if n = 0 then ⟨.ok, .ok, .panic, .ok⟩ else ⟨.panic, .ok, .ok, .ok⟩)
        (fun n => if n = 0 then .timer else .stop) 2 =
        some ([Event.beforeStart "S1", Event.invoke "S1", Event.returned "S1",
          Event.afterStop "S1", Event.afterPanic "S1", Event.pause 1000000,
          Event.beforeStart "S1", Event.afterPanic "S1", Event.pause 1000000],
          .returned) :=
  ⟨rfl, rfl, rfl, rfl⟩

/-- C10, amended. The recover boundary of an attempt encloses the two hook
calls around `service.Run`, and not the call of `AfterServicePanic`. With
`AfterServicePanic` absent or returning normally in attempt `n`: (a) if
`BeforeServiceStart` panics, the attempt does not invoke the service, calls
`AfterServicePanic` if supplied and reports `retry = true`; (b) if
`service.Run` returns normally and `AfterServiceStop` panics, the attempt
calls `AfterServicePanic` if supplied and reports `retry = true`; (c) after
an attempt that reports `retry = true` the loop pauses; it returns without
another call if the stop signal wins; if the timer wins, attempt `n + 1`
follows the pause in the trace of every run that ends, invokes the service
unless `BeforeServiceStart` panics in it, and ends the loop when it is clean;
(d) in the interleaved model of `Run`, a service goroutine inside
`service.Run` whose attempt reports `retry = true` can take the timer branch
and call the closure again, which brings it back inside `service.Run`, after
the pause and a new invocation, whenever `BeforeServiceStart` does not panic
in that call; (e) the same for a goroutine at the head of its loop whose
attempt reports `retry = true` before `service.Run` is entered. -/
theorem hook_panic_is_retried (opts : Options) (name : String)
    (env : Nat → AttemptEnv) (race : Nat → PauseOutcome) (fuel n : Nat)
    (hap : opts.AfterServicePanic = true → (env n).afterPanic = .ok) :
    (opts.BeforeServiceStart = true → (env n).beforeStart = .panic →
      runServiceFn opts name (env n) =
        ([Event.beforeStart name] ++ hookCall opts.AfterServicePanic (Event.afterPanic name),
          .retry true))
    ∧ ((opts.BeforeServiceStart = true → (env n).beforeStart = .ok) →
        (env n).run = .ok → opts.AfterServiceStop = true → (env n).afterStop = .panic →
      runServiceFn opts name (env n) =
        (hookCall opts.BeforeServiceStart (Event.beforeStart name)
          ++ [Event.invoke name, Event.returned name, Event.afterStop name]
          ++ hookCall opts.AfterServicePanic (Event.afterPanic name), .retry true))
    ∧ (∀ ev, runServiceFn opts name (env n) = (ev, .retry true) →
        (race n = .stop →
          retry race opts.RecoverDuration (fun m => runServiceFn opts name (env m))
            (fuel + 1) n = some (ev ++ [Event.pause opts.RecoverDuration], .returned))
        ∧ (race n = .timer →
          (∀ tr r, retry race opts.RecoverDuration (fun m => runServiceFn opts name (env m))
              (fuel + 2) n = some (tr, r) →
            (ev ++ [Event.pause opts.RecoverDuration]
              ++ (runServiceFn opts name (env (n + 1))).1) <+: tr)
          ∧ ((opts.BeforeServiceStart = true → (env (n + 1)).beforeStart = .ok) →
            Event.invoke name ∈ (runServiceFn opts name (env (n + 1))).1)
          ∧ ((env (n + 1)).hooksOk opts = true → (env (n + 1)).run = .ok →
            retry race opts.RecoverDuration (fun m => runServiceFn opts name (env m))
              (fuel + 2) n =
              some (ev ++ [Event.pause opts.RecoverDuration]
                ++ (hookCall opts.BeforeServiceStart (Event.beforeStart name)
                  ++ [Event.invoke name, Event.returned name]
                  ++ hookCall opts.AfterServiceStop (Event.afterStop name)), .returned))))
    ∧ (∀ (groups : List (List String)) (s : State) (g : Nat) (e e' : AttemptEnv),
        s.crashed = false → name ∈ members ⟨opts, groups⟩ g → s.svc g name = .running →
        (fnLeave (effectiveOptions opts) name e).2 = .retry true →
        (opts.BeforeServiceStart = true → e'.beforeStart = .ok) →
        ∃ s', exec ⟨opts, groups⟩ anyAct s
              [.leave g name e, .timer g name, .enter g name e'] = some s'
          ∧ s'.svc g name = .running
          ∧ s'.log = s.log ++
              ((fnLeave (effectiveOptions opts) name e).1
                ++ [Event.pause (effectiveOptions opts).RecoverDuration]
                ++ hookCall opts.BeforeServiceStart (Event.beforeStart name)
                ++ [Event.invoke name]).map (fun x => (g, x)))
    ∧ (∀ (groups : List (List String)) (s : State) (g : Nat) (e e' : AttemptEnv),
        s.crashed = false → name ∈ members ⟨opts, groups⟩ g → s.svc g name = .loop →
        (fnEnter (effectiveOptions opts) name e).2 = some (.retry true) →
        (opts.BeforeServiceStart = true → e'.beforeStart = .ok) →
        ∃ s', exec ⟨opts, groups⟩ anyAct s
              [.enter g name e, .timer g name, .enter g name e'] = some s'
          ∧ s'.svc g name = .running
          ∧ s'.log = s.log ++
              ((fnEnter (effectiveOptions opts) name e).1
                ++ [Event.pause (effectiveOptions opts).RecoverDuration]
                ++ hookCall opts.BeforeServiceStart (Event.beforeStart name)
                ++ [Event.invoke name]).map (fun x => (g, x))) := by
  have hB : (effectiveOptions opts).BeforeServiceStart = opts.BeforeServiceStart := by
    unfold effectiveOptions
    split <;> rfl
  have hfe : ∀ e' : AttemptEnv, (opts.BeforeServiceStart = true → e'.beforeStart = .ok) →
      fnEnter (effectiveOptions opts) name e' =
        (hookCall opts.BeforeServiceStart (Event.beforeStart name) ++ [Event.invoke name],
          none) := by
    intro e' hbs
    cases hb : opts.BeforeServiceStart
    · simp [fnEnter, hB, hb, hookCall]
    · simp [fnEnter, hB, hb, hookCall, hbs hb]
  have again : ∀ (groups : List (List String)) (s : State) (g : Nat) (ev : List Event)
      (e' : AttemptEnv), s.crashed = false → name ∈ members ⟨opts, groups⟩ g →
      (opts.BeforeServiceStart = true → e'.beforeStart = .ok) →
      exec ⟨opts, groups⟩ anyAct (s.move g name .pausing ev)
          [.timer g name, .enter g name e'] =
        some (((s.move g name .pausing ev).move g name .loop []).move g name .running
          (hookCall opts.BeforeServiceStart (Event.beforeStart name)
            ++ [Event.invoke name])) := by
    intro groups s g ev e' hc hm hbs
    have h2 : step ⟨opts, groups⟩ (s.move g name .pausing ev) (.timer g name) =
        some ((s.move g name .pausing ev).move g name .loop []) := by
      simp [step, State.move, hc, hm]
    have h3 : step ⟨opts, groups⟩ ((s.move g name .pausing ev).move g name .loop [])
          (.enter g name e') =
        some (((s.move g name .pausing ev).move g name .loop []).move g name .running
          (hookCall opts.BeforeServiceStart (Event.beforeStart name)
            ++ [Event.invoke name])) := by
      simp [step, hfe e' hbs, State.move, hc, hm]
    simp only [exec, anyAct, if_true, h2, h3]
  refine ⟨?_, ?_, ?_, ?_, ?_⟩
  · intro hbs hp
    cases hA : opts.AfterServicePanic <;>
      simp_all [runServiceFn, fnEnter, recovered, hookCall]
  · intro hbs hrun has hp
    cases hA : opts.AfterServicePanic <;> cases hB : opts.BeforeServiceStart <;>
      simp_all [runServiceFn, fnEnter, fnLeave, recovered, hookCall]
  · intro ev hev
    refine ⟨fun hr => retry_stop_wins race _ _ fuel n ev hev hr, fun hr => ⟨?_, ?_, ?_⟩⟩
    · intro tr r h
      rw [retry_timer_wins race _ _ (fuel + 1) n ev hev hr] at h
      cases hrest : retry race opts.RecoverDuration
          (fun m => runServiceFn opts name (env m)) (fuel + 1) (n + 1) with
      | none => simp [hrest] at h
      | some p =>
        obtain ⟨rest, r'⟩ := p
        simp only [hrest, Option.some.injEq, Prod.mk.injEq] at h
        obtain ⟨t, ht⟩ := retry_trace_starts_with_attempt race _ _ fuel (n + 1) rest r' hrest
        rw [← h.1]
        exact ⟨t, by simp [← ht, List.append_assoc]⟩
    · intro hbs
      cases hB : opts.BeforeServiceStart
      · simp [runServiceFn, fnEnter, hB]
      · have := hbs hB
        simp [runServiceFn, fnEnter, hB, this]
    · intro hooks hrun
      rw [retry_timer_wins race _ _ (fuel + 1) n ev hev hr,
        retry_returns_false race _ _ fuel (n + 1) _
          (attempt_of_return opts name (env (n + 1)) hooks hrun)]
  · intro groups s g e e' hc hm hrun hres hbs
    have h1 : step ⟨opts, groups⟩ s (.leave g name e) =
        some (s.move g name .pausing
          ((fnLeave (effectiveOptions opts) name e).1
            ++ [Event.pause (effectiveOptions opts).RecoverDuration])) := by
      simp [step, hc, hm, hrun, hres, afterFn]
    refine ⟨((s.move g name .pausing
        ((fnLeave (effectiveOptions opts) name e).1
          ++ [Event.pause (effectiveOptions opts).RecoverDuration])).move g name .loop []).move
        g name .running
        (hookCall opts.BeforeServiceStart (Event.beforeStart name) ++ [Event.invoke name]),
      ?_, ?_, ?_⟩
    · simp only [exec, anyAct, if_true, h1]
      exact again groups s g _ e' hc hm hbs
    · simp [State.move]
    · simp [State.move, List.append_assoc]
  · intro groups s g e e' hc hm hloop hres hbs
    have h1 : step ⟨opts, groups⟩ s (.enter g name e) =
        some (s.move g name .pausing
          ((fnEnter (effectiveOptions opts) name e).1
            ++ [Event.pause (effectiveOptions opts).RecoverDuration])) := by
      rcases hf : fnEnter (effectiveOptions opts) name e with ⟨ev, _ | r⟩
      · simp [hf] at hres
      · simp only [hf, Option.some.injEq] at hres
        subst hres
        simp [step, hc, hm, hloop, hf, afterFn]
    refine ⟨((s.move g name .pausing
        ((fnEnter (effectiveOptions opts) name e).1
          ++ [Event.pause (effectiveOptions opts).RecoverDuration])).move g name .loop []).move
        g name .running
        (hookCall opts.BeforeServiceStart (Event.beforeStart name) ++ [Event.invoke name]),
      ?_, ?_, ?_⟩
    · simp only [exec, anyAct, if_true, h1]
      exact again groups s g _ e' hc hm hbs
    · simp [State.move]
    · simp [State.move, List.append_assoc]

/-- C10, witness: all hooks supplied; in attempt `0` the service returns and
`AfterServiceStop` panics, attempt `1` is clean. -/
theorem hook_panic_is_retried_witness :
    runServiceFn ⟨1000000, true, true, true⟩ "S1" ⟨.ok, .ok, .panic, .ok⟩ =
        (hookCall true (Event.beforeStart "S1")
          ++ [Event.invoke "S1", Event.returned "S1", Event.afterStop "S1"]
          ++ hookCall true (Event.afterPanic "S1"), .retry true) :=
  (hook_panic_is_retried ⟨1000000, true, true, true⟩ "S1"
    (fun n => ⟨.ok, .ok, if n = 0 then .panic else .ok, .ok⟩) (fun _ => .timer) 0 0
    (fun _ => rfl)).2.1 (fun _ => rfl) rfl rfl rfl

/-! ## Executions of `Run` -/

theorem exec_invariant (cfg : Config) (allowed : State → Action → Bool)
    (I : State → Prop)
    (hstep : ∀ s a s', I s → allowed s a = true → step cfg s a = some s' → I s') :
    ∀ (acts : List Action) (s s' : State), I s → exec cfg allowed s acts = some s' → I s' := by
  intro acts
  induction acts with
  | nil =>
    intro s s' hI h
    simp [exec] at h
    exact h ▸ hI
  | cons a rest ih =>
    intro s s' hI h
    by_cases ha : allowed s a = true
    · cases hs : step cfg s a with
      | none => simp [exec, ha, hs] at h
      | some t =>
        simp [exec, ha, hs] at h
        exact ih t s' (hstep s a t hI ha hs) h
    · simp [exec, ha] at h

theorem reachable_invariant (cfg : Config) (allowed : State → Action → Bool)
    (I : State → Prop) (hinit : I init)
    (hstep : ∀ s a s', I s → allowed s a = true → step cfg s a = some s' → I s')
    (s : State) (h : Reachable cfg allowed s) : I s := by
  obtain ⟨acts, hacts⟩ := h
  exact exec_invariant cfg allowed I hstep acts init s hinit hacts

theorem cascade_init (cfg : Config) : Cascade cfg init := by
  constructor <;> simp [init]

theorem cascade_move (cfg : Config) (s : State) (g : Nat) (name : String)
    (st : SvcStatus) (ev : List Event) (hI : Cascade cfg s)
    (hm : name ∈ members cfg g) (hnf : (s.svc g name).finished = false) :
    Cascade cfg (s.move g name st ev) := by
  obtain ⟨h1, h2, h3⟩ := hI
  refine ⟨h1, ?_, h3⟩
  intro g' hr n hn
  have hfin := h2 g' hr n hn
  by_cases hg : g' = g
  · subst hg
    have := h2 g' hr name hm
    simp [hnf] at this
  · simp [State.move, hg, hfin]

/-- Every step of a service goroutine starts from a status before
`wg.Done()`, in a state that has not crashed, and moves only that service. -/
theorem step_service (cfg : Config) (s s' : State) (a : Action) (g : Nat)
    (name : String)
    (ha : (∃ e, a = .enter g name e) ∨ (∃ e, a = .leave g name e) ∨ a = .timer g name
      ∨ (∃ e site, a = .goexit g name e site) ∨ a = .serviceDone g name)
    (h : step cfg s a = some s') :
    name ∈ members cfg g ∧ (s.svc g name).finished = false ∧
      ∃ st ev, s' = s.move g name st ev := by
  rcases ha with ⟨e, rfl⟩ | ⟨e, rfl⟩ | rfl | ⟨e, site, rfl⟩ | rfl
  · simp only [step] at h
    split at h
    · rename_i hg
      obtain ⟨_, hm, hst⟩ := hg
      refine ⟨hm, by simp [hst, SvcStatus.finished], ?_⟩
      split at h <;> simp only [Option.some.injEq] at h <;> exact ⟨_, _, h.symm⟩
    · simp at h
  · simp only [step] at h
    split at h
    · rename_i hg
      obtain ⟨_, hm, hst⟩ := hg
      simp only [Option.some.injEq] at h
      exact ⟨hm, by simp [hst, SvcStatus.finished], _, _, h.symm⟩
    · simp at h
  · simp only [step] at h
    split at h
    · rename_i hg
      obtain ⟨_, hm, hst⟩ := hg
      simp only [Option.some.injEq] at h
      exact ⟨hm, by simp [hst, SvcStatus.finished], _, _, h.symm⟩
    · simp at h
  · simp only [step] at h
    split at h
    · rename_i hg
      obtain ⟨_, hm, hst⟩ := hg
      refine ⟨hm, by simp [hst, SvcStatus.finished], ?_⟩
      split at h
      · simp only [Option.some.injEq] at h
        exact ⟨_, _, h.symm⟩
      · simp at h
    · split at h
      · rename_i hg
        obtain ⟨_, hm, hst⟩ := hg
        refine ⟨hm, by simp [hst, SvcStatus.finished], ?_⟩
        split at h
        · simp only [Option.some.injEq] at h
          exact ⟨_, _, h.symm⟩
        · simp at h
      · simp at h
  · simp only [step] at h
    split at h
    · rename_i hg
      obtain ⟨_, hm, hst⟩ := hg
      simp only [Option.some.injEq] at h
      exact ⟨hm, by simp [hst, SvcStatus.finished], _, _, h.symm⟩
    · split at h
      · rename_i hg
        obtain ⟨_, hm, hst⟩ := hg
        simp only [Option.some.injEq] at h
        exact ⟨hm, by simp [hst, SvcStatus.finished], _, _, h.symm⟩
      · simp at h

theorem cascade_step (cfg : Config) (s : State) (a : Action) (s' : State)
    (hI : Cascade cfg s) (h : step cfg s a = some s') : Cascade cfg s' := by
  cases a with
  | cancelRoot =>
    obtain ⟨h1, h2, h3⟩ := hI
    simp only [step] at h
    split at h
    · simp only [Option.some.injEq] at h
      subst h
      exact ⟨h1, h2, h3⟩
    · simp at h
  | enter g name e =>
    obtain ⟨hm, hnf, st, ev, rfl⟩ := step_service cfg s s' _ g name (Or.inl ⟨e, rfl⟩) h
    exact cascade_move cfg s g name st ev hI hm hnf
  | leave g name e =>
    obtain ⟨hm, hnf, st, ev, rfl⟩ :=
      step_service cfg s s' _ g name (Or.inr (Or.inl ⟨e, rfl⟩)) h
    exact cascade_move cfg s g name st ev hI hm hnf
  | timer g name =>
    obtain ⟨hm, hnf, st, ev, rfl⟩ :=
      step_service cfg s s' _ g name (Or.inr (Or.inr (Or.inl rfl))) h
    exact cascade_move cfg s g name st ev hI hm hnf
  | stop g name =>
    simp only [step] at h
    split at h
    · rename_i hg
      obtain ⟨_, hm, hst, _⟩ := hg
      simp only [Option.some.injEq] at h
      subst h
      have := cascade_move cfg s g name .exited [] hI hm (by simp [hst, SvcStatus.finished])
      exact ⟨this.1, this.2, this.3⟩
    · simp at h
  | goexit g name e site =>
    obtain ⟨hm, hnf, st, ev, rfl⟩ :=
      step_service cfg s s' _ g name (Or.inr (Or.inr (Or.inr (Or.inl ⟨e, site, rfl⟩)))) h
    exact cascade_move cfg s g name st ev hI hm hnf
  | serviceDone g name =>
    obtain ⟨hm, hnf, st, ev, rfl⟩ :=
      step_service cfg s s' _ g name (Or.inr (Or.inr (Or.inr (Or.inr rfl)))) h
    exact cascade_move cfg s g name st ev hI hm hnf
  | drained g =>
    obtain ⟨h1, h2, h3⟩ := hI
    simp only [step] at h
    split at h
    · rename_i hg
      obtain ⟨_, hlt, hw, hall⟩ := hg
      simp only [Option.some.injEq] at h
      subst h
      refine ⟨?_, ?_, ?_⟩
      · intro i hi
        have := h1 i hi
        by_cases hig : i + 1 = g
        · subst hig
          simp [hw] at this
        · simpa [hig] using this
      · intro g' hr n hn
        by_cases hg' : g' = g
        · subst hg'
          exact hall n hn
        · simp only [hg', if_false] at hr
          exact h2 g' hr n hn
      · intro hret g' hg'
        have := h3 hret g' hg'
        by_cases hgg : g' = g
        · subst hgg
          simp [hw] at this
        · simpa [hgg] using this
    · simp at h
  | cancel g =>
    obtain ⟨h1, h2, h3⟩ := hI
    simp only [step] at h
    split at h
    · rename_i hg
      obtain ⟨_, hlt, hw⟩ := hg
      simp only [Option.some.injEq] at h
      subst h
      refine ⟨?_, ?_, ?_⟩
      · intro i hi
        by_cases hig : i + 1 = g
        · simp [hig]
        · simp only [hig, if_false] at hi ⊢
          exact h1 i hi
      · intro g' hr n hn
        by_cases hg' : g' = g
        · subst hg'
          exact h2 g' (by simp [hw]) n hn
        · simp only [hg', if_false] at hr
          exact h2 g' hr n hn
      · intro hret g' hg'
        have := h3 hret g' hg'
        by_cases hgg : g' = g
        · subst hgg
          simp [hw] at this
        · simpa [hgg] using this
    · simp at h
  | groupDone g =>
    obtain ⟨h1, h2, h3⟩ := hI
    simp only [step] at h
    split at h
    · rename_i hg
      obtain ⟨_, hlt, hw⟩ := hg
      simp only [Option.some.injEq] at h
      subst h
      refine ⟨?_, ?_, ?_⟩
      · intro i hi
        by_cases hig : i + 1 = g
        · simp [hig]
        · simp only [hig, if_false]
          exact h1 i hi
      · intro g' hr n hn
        by_cases hg' : g' = g
        · subst hg'
          exact h2 g' (by simp [hw]) n hn
        · simp only [hg', if_false] at hr
          exact h2 g' hr n hn
      · intro hret g' hg'
        have := h3 hret g' hg'
        by_cases hgg : g' = g
        · simp [hgg]
        · simpa [hgg] using this
    · simp at h
  | mainReturn =>
    obtain ⟨h1, h2, h3⟩ := hI
    simp only [step] at h
    split at h
    · rename_i hg
      obtain ⟨_, _, hall⟩ := hg
      simp only [Option.some.injEq] at h
      subst h
      exact ⟨h1, h2, fun _ => hall⟩
    · simp at h
  | abort g name =>
    obtain ⟨h1, h2, h3⟩ := hI
    simp only [step] at h
    split at h
    · simp only [Option.some.injEq] at h
      subst h
      exact ⟨h1, h2, h3⟩
    · simp at h

theorem cascade_reachable (cfg : Config) (allowed : State → Action → Bool) (s : State)
    (h : Reachable cfg allowed s) : Cascade cfg s :=
  reachable_invariant cfg allowed (Cascade cfg) (cascade_init cfg)
    (fun s a s' hI _ hs => cascade_step cfg s a s' hI hs) s h

theorem finished_outOfLoop (st : SvcStatus) (h : st.finished = true) :
    st.outOfLoop = true := by
  cases st <;> simp_all [SvcStatus.finished, SvcStatus.outOfLoop]

theorem soloReturned_reachable : Reachable soloConfig anyAct soloReturned :=
  ⟨soloEarlyReturn, rfl⟩

theorem pairStopped_reachable :
    Reachable pairConfig (disciplined pairConfig) pairStopped :=
  ⟨pairPanicThenStop, rfl⟩

theorem pairReturned_reachable :
    Reachable pairConfig (disciplined pairConfig) pairReturned :=
  ⟨pairShutdown, rfl⟩

theorem reachable_weaken (cfg : Config) (allowed : State → Action → Bool) (s : State)
    (h : Reachable cfg allowed s) : Reachable cfg anyAct s := by
  obtain ⟨acts, hacts⟩ := h
  refine ⟨acts, ?_⟩
  generalize init = s0 at hacts
  induction acts generalizing s0 with
  | nil => simpa [exec] using hacts
  | cons a rest ih =>
    by_cases ha : allowed s0 a = true
    · cases hs : step cfg s0 a with
      | none => simp [exec, ha, hs] at hacts
      | some t =>
        simp only [exec, ha, hs, if_true] at hacts
        simp only [exec, anyAct, hs, if_true]
        exact ih t hacts
    · simp [exec, ha] at hacts

/-- C1. In every reachable state of `Run`, whatever the services and hooks
do, and for every group `i` that is not the last: if the context that the
services of group `i` observe is cancelled, then the `sg.run` of group
`i + 1` has returned and every service goroutine of group `i + 1` is out of
its retry loop and has called `wg.Done()`. -/
theorem stop_signal_only_after_next_group_drained (cfg : Config) (s : State) (i : Nat)
    (hi : i + 1 < cfg.groups.length) (hreach : Reachable cfg anyAct s)
    (hstop : ctxDone cfg s i = true) :
    s.runner (i + 1) ≠ .waiting ∧
      ∀ name ∈ members cfg (i + 1),
        (s.svc (i + 1) name).outOfLoop = true ∧ (s.svc (i + 1) name).finished = true := by
  have hC := cascade_reachable cfg anyAct s hreach
  have hd : s.derived i = true := by
    have hne : i + 1 ≠ cfg.groups.length := by omega
    simpa [ctxDone, hne] using hstop
  have hr : s.runner (i + 1) ≠ .waiting := by
    rcases hC.derived_by_next i hd with h | h <;> simp [h]
  refine ⟨hr, fun name hn => ?_⟩
  have := hC.drained_finished (i + 1) hr name hn
  exact ⟨finished_outOfLoop _ this, this⟩

/-- C1, witness: in `pairStopped` the context of group 0 is cancelled and the
service of group 1 has left its loop. -/
theorem stop_signal_only_after_next_group_drained_witness :
    pairStopped.runner (0 + 1) ≠ .waiting ∧
      ∀ name ∈ members pairConfig (0 + 1),
        (pairStopped.svc (0 + 1) name).outOfLoop = true
          ∧ (pairStopped.svc (0 + 1) name).finished = true :=
  stop_signal_only_after_next_group_drained pairConfig pairStopped 0 (by decide)
    (reachable_weaken _ _ _ pairStopped_reachable) rfl

/-- C3. In every reachable state of `Run`: if `Run` has returned to its
caller, then every group goroutine has ended and every service goroutine of
every group is out of its retry loop (it is not at the loop head, not inside
an invocation and not in a pause) and has called `wg.Done()`; and if the
`sg.run` of a group has returned, every service goroutine of that group is
out of its retry loop. -/
theorem run_returns_after_all_loops_exit (cfg : Config) (s : State)
    (hreach : Reachable cfg anyAct s) :
    (s.returned = true →
      (∀ g < cfg.groups.length, s.runner g = .done)
      ∧ ∀ g < cfg.groups.length, ∀ name ∈ members cfg g,
          (s.svc g name).outOfLoop = true ∧ s.svc g name ≠ .loop
            ∧ s.svc g name ≠ .running ∧ s.svc g name ≠ .pausing
            ∧ (s.svc g name).finished = true)
    ∧ (∀ g, s.runner g ≠ .waiting → ∀ name ∈ members cfg g,
          (s.svc g name).outOfLoop = true ∧ s.svc g name ≠ .loop
            ∧ s.svc g name ≠ .running ∧ s.svc g name ≠ .pausing) := by
  have hC := cascade_reachable cfg anyAct s hreach
  have key : ∀ g, s.runner g ≠ .waiting → ∀ name ∈ members cfg g,
      (s.svc g name).outOfLoop = true ∧ s.svc g name ≠ .loop
        ∧ s.svc g name ≠ .running ∧ s.svc g name ≠ .pausing
        ∧ (s.svc g name).finished = true := by
    intro g hr name hn
    have hf := hC.drained_finished g hr name hn
    refine ⟨finished_outOfLoop _ hf, ?_, ?_, ?_, hf⟩ <;>
      intro h <;> simp [h, SvcStatus.finished] at hf
  refine ⟨fun hret => ⟨hC.returned_done hret, fun g hg name hn => ?_⟩, fun g hr name hn => ?_⟩
  · exact key g (by simp [hC.returned_done hret g hg]) name hn
  · obtain ⟨h1, h2, h3, h4, _⟩ := key g hr name hn
    exact ⟨h1, h2, h3, h4⟩

/-- C3, witness: `pairReturned`, where `Run` has returned. -/
theorem run_returns_after_all_loops_exit_witness :
    (∀ g < pairConfig.groups.length, pairReturned.runner g = .done)
      ∧ ∀ g < pairConfig.groups.length, ∀ name ∈ members pairConfig g,
          (pairReturned.svc g name).outOfLoop = true ∧ pairReturned.svc g name ≠ .loop
            ∧ pairReturned.svc g name ≠ .running ∧ pairReturned.svc g name ≠ .pausing
            ∧ (pairReturned.svc g name).finished = true :=
  (run_returns_after_all_loops_exit pairConfig pairReturned
    (reachable_weaken _ _ _ pairReturned_reachable)).1 rfl

/-! ## Inversion of the steps of a service goroutine -/

theorem effectiveOptions_flags (opts : Options) :
    (effectiveOptions opts).BeforeServiceStart = opts.BeforeServiceStart
      ∧ (effectiveOptions opts).AfterServiceStop = opts.AfterServiceStop
      ∧ (effectiveOptions opts).AfterServicePanic = opts.AfterServicePanic := by
  unfold effectiveOptions
  split <;> simp

theorem recovered_of_hook_returns (opts : Options) (name : String) (e : AttemptEnv)
    (h : (!opts.AfterServicePanic || decide (e.afterPanic = .ok)) = true) :
    recovered opts name e =
      (hookCall opts.AfterServicePanic (Event.afterPanic name), .retry true) := by
  cases hA : opts.AfterServicePanic <;> simp_all [recovered, hookCall]

theorem step_enter (cfg : Config) (s s' : State) (g : Nat) (name : String)
    (e : AttemptEnv) (h : step cfg s (.enter g name e) = some s') :
    s.crashed = false ∧ name ∈ members cfg g ∧ s.svc g name = .loop ∧
      (((fnEnter (effectiveOptions cfg.opts) name e).2 = none
          ∧ s' = s.move g name .running (fnEnter (effectiveOptions cfg.opts) name e).1)
        ∨ ((fnEnter (effectiveOptions cfg.opts) name e).2 =
              some (recovered (effectiveOptions cfg.opts) name e).2
          ∧ s' = s.move g name
              (afterFn (effectiveOptions cfg.opts).RecoverDuration
                (recovered (effectiveOptions cfg.opts) name e).2).1
              ((fnEnter (effectiveOptions cfg.opts) name e).1 ++
                (afterFn (effectiveOptions cfg.opts).RecoverDuration
                  (recovered (effectiveOptions cfg.opts) name e).2).2))) := by
  simp only [step] at h
  split at h
  · rename_i hg
    refine ⟨hg.1, hg.2.1, hg.2.2, ?_⟩
    unfold fnEnter at h ⊢
    cases hB : (effectiveOptions cfg.opts).BeforeServiceStart
    · simp only [hB] at h
      simp only [Bool.false_eq_true, if_false, Option.some.injEq] at h
      left
      simp [h.symm]
    · cases hb : e.beforeStart
      · simp only [hB, hb, if_true, Option.some.injEq] at h
        left
        simp [h.symm]
      · simp only [hB, hb, if_true, Option.some.injEq] at h
        right
        simp [h.symm]
  · simp at h

theorem step_leave (cfg : Config) (s s' : State) (g : Nat) (name : String)
    (e : AttemptEnv) (h : step cfg s (.leave g name e) = some s') :
    s.crashed = false ∧ name ∈ members cfg g ∧ s.svc g name = .running ∧
      s' = s.move g name
        (afterFn (effectiveOptions cfg.opts).RecoverDuration
          (fnLeave (effectiveOptions cfg.opts) name e).2).1
        ((fnLeave (effectiveOptions cfg.opts) name e).1 ++
          (afterFn (effectiveOptions cfg.opts).RecoverDuration
            (fnLeave (effectiveOptions cfg.opts) name e).2).2) := by
  simp only [step] at h
  split at h
  · rename_i hg
    simp only [Option.some.injEq] at h
    exact ⟨hg.1, hg.2.1, hg.2.2, h.symm⟩
  · simp at h

theorem step_timer (cfg : Config) (s s' : State) (g : Nat) (name : String)
    (h : step cfg s (.timer g name) = some s') :
    s.crashed = false ∧ name ∈ members cfg g ∧ s.svc g name = .pausing ∧
      s' = s.move g name .loop [] := by
  simp only [step] at h
  split at h
  · rename_i hg
    simp only [Option.some.injEq] at h
    exact ⟨hg.1, hg.2.1, hg.2.2, h.symm⟩
  · simp at h

theorem step_stop (cfg : Config) (s s' : State) (g : Nat) (name : String)
    (h : step cfg s (.stop g name) = some s') :
    s.crashed = false ∧ name ∈ members cfg g ∧ s.svc g name = .pausing ∧
      ctxDone cfg s g = true ∧ s' = (s.move g name .exited []).mark g name := by
  simp only [step] at h
  split at h
  · rename_i hg
    simp only [Option.some.injEq] at h
    exact ⟨hg.1, hg.2.1, hg.2.2.1, hg.2.2.2, h.symm⟩
  · simp at h

theorem step_goexit (cfg : Config) (s s' : State) (g : Nat) (name : String)
    (e : AttemptEnv) (site : GoexitSite)
    (h : step cfg s (.goexit g name e site) = some s') :
    s.crashed = false ∧ name ∈ members cfg g ∧
      ((s.svc g name = .loop ∧ ∃ ev,
          goexitEnter (effectiveOptions cfg.opts) name e site = some ev
            ∧ s' = s.move g name .exited ev)
        ∨ (s.svc g name = .running ∧ ∃ ev,
          goexitLeave (effectiveOptions cfg.opts) name e site = some ev
            ∧ s' = s.move g name .exited ev)) := by
  simp only [step] at h
  split at h
  · rename_i hg
    refine ⟨hg.1, hg.2.1, Or.inl ⟨hg.2.2, ?_⟩⟩
    split at h
    · rename_i ev hev
      simp only [Option.some.injEq] at h
      exact ⟨ev, hev, h.symm⟩
    · simp at h
  · split at h
    · rename_i hg
      refine ⟨hg.1, hg.2.1, Or.inr ⟨hg.2.2, ?_⟩⟩
      split at h
      · rename_i ev hev
        simp only [Option.some.injEq] at h
        exact ⟨ev, hev, h.symm⟩
      · simp at h
    · simp at h

theorem goexit_no_pause (opts : Options) (name : String) (e : AttemptEnv)
    (site : GoexitSite) (ev : List Event) (d : Int)
    (h : goexitEnter opts name e site = some ev ∨ goexitLeave opts name e site = some ev) :
    Event.pause d ∉ ev := by
  obtain ⟨rd, bs, as, ap⟩ := opts
  obtain ⟨o1, o2, o3, o4⟩ := e
  rcases h with h | h
  · cases site <;> cases bs <;> cases ap <;> cases o1 <;>
      simp [goexitEnter] at h <;> subst h <;> simp
  · cases site <;> cases as <;> cases ap <;> cases o2 <;> cases o3 <;>
      simp [goexitLeave] at h <;> subst h <;> simp

theorem step_serviceDone (cfg : Config) (s s' : State) (g : Nat) (name : String)
    (h : step cfg s (.serviceDone g name) = some s') :
    s.crashed = false ∧ name ∈ members cfg g ∧
      ((s.svc g name = .exited ∧ s' = s.move g name .done [])
        ∨ (s.svc g name = .unwinding ∧ s' = s.move g name .dead [])) := by
  simp only [step] at h
  split at h
  · rename_i hg
    simp only [Option.some.injEq] at h
    exact ⟨hg.1, hg.2.1, Or.inl ⟨hg.2.2, h.symm⟩⟩
  · split at h
    · rename_i hg
      simp only [Option.some.injEq] at h
      exact ⟨hg.1, hg.2.1, Or.inr ⟨hg.2.2, h.symm⟩⟩
    · simp at h

theorem fnEnter_no_return (opts : Options) (name : String) (e : AttemptEnv)
    (n : String) : Event.returned n ∉ (fnEnter opts name e).1 := by
  unfold fnEnter recovered
  cases opts.BeforeServiceStart <;> cases e.beforeStart <;>
    cases opts.AfterServicePanic <;> cases e.afterPanic <;> simp

theorem fnLeave_return (opts : Options) (name : String) (e : AttemptEnv)
    (n : String) (h : Event.returned n ∈ (fnLeave opts name e).1) : e.run = .ok := by
  obtain ⟨rd, bs, as, ap⟩ := opts
  obtain ⟨o1, o2, o3, o4⟩ := e
  cases o2
  · rfl
  · cases ap <;> cases o4 <;> simp [fnLeave, recovered] at h

theorem fnLeave_false (opts : Options) (name : String) (e : AttemptEnv)
    (h : (fnLeave opts name e).2 = .retry false) : e.run = .ok := by
  obtain ⟨rd, bs, as, ap⟩ := opts
  obtain ⟨o1, o2, o3, o4⟩ := e
  cases o2
  · rfl
  · cases ap <;> cases o4 <;> simp [fnLeave, recovered] at h

theorem fnLeave_not_escaped (opts : Options) (name : String) (e : AttemptEnv)
    (hap : (!opts.AfterServicePanic || decide (e.afterPanic = .ok)) = true) :
    (fnLeave opts name e).2 ≠ .escaped := by
  unfold fnLeave
  rw [recovered_of_hook_returns opts name e hap]
  cases e.run <;> cases opts.AfterServiceStop <;> cases e.afterStop <;> simp

theorem afterFn_no_return (d : Int) (r : AttemptResult) (n : String) :
    Event.returned n ∉ (afterFn d r).2 := by
  rcases r with b | _
  · cases b <;> simp [afterFn]
  · simp [afterFn]

/-! ## No panic escapes when the panic hook returns -/

theorem noEscape_init : NoEscape init := by
  constructor <;> simp [init]

theorem noEscape_move (s : State) (g : Nat) (name : String) (st : SvcStatus)
    (ev : List Event) (hI : NoEscape s) (h1 : st ≠ .unwinding) (h2 : st ≠ .dead) :
    NoEscape (s.move g name st ev) := by
  refine ⟨hI.not_crashed, ?_, ?_⟩
  · intro g' n'
    by_cases hc : g' = g ∧ n' = name
    · simp [State.move, hc, h1]
    · simp only [State.move, hc, if_false]
      exact hI.not_unwinding g' n'
  · intro g' n'
    by_cases hc : g' = g ∧ n' = name
    · simp [State.move, hc, h2]
    · simp only [State.move, hc, if_false]
      exact hI.not_dead g' n'

theorem noEscape_step (cfg : Config) (s : State) (a : Action) (s' : State)
    (hI : NoEscape s) (ha : panicHookReturns cfg.opts s a = true)
    (h : step cfg s a = some s') : NoEscape s' := by
  have hflag := (effectiveOptions_flags cfg.opts).2.2
  cases a with
  | cancelRoot =>
    simp only [step] at h
    split at h
    · simp only [Option.some.injEq] at h
      subst h
      exact ⟨hI.not_crashed, hI.not_unwinding, hI.not_dead⟩
    · simp at h
  | enter g name e =>
    obtain ⟨_, _, _, hcase⟩ := step_enter cfg s s' g name e h
    have hrec := recovered_of_hook_returns (effectiveOptions cfg.opts) name e
      (by rw [hflag]; simpa [panicHookReturns] using ha)
    rcases hcase with ⟨_, rfl⟩ | ⟨_, rfl⟩
    · exact noEscape_move s g name _ _ hI (by simp) (by simp)
    · rw [hrec]
      exact noEscape_move s g name _ _ hI (by simp [afterFn]) (by simp [afterFn])
  | leave g name e =>
    obtain ⟨_, _, _, rfl⟩ := step_leave cfg s s' g name e h
    have hne := fnLeave_not_escaped (effectiveOptions cfg.opts) name e
      (by rw [hflag]; simpa [panicHookReturns] using ha)
    rcases hr : (fnLeave (effectiveOptions cfg.opts) name e).2 with b | _
    · cases b <;>
        exact noEscape_move s g name _ _ hI (by simp [afterFn]) (by simp [afterFn])
    · exact absurd hr hne
  | timer g name =>
    obtain ⟨_, _, _, rfl⟩ := step_timer cfg s s' g name h
    exact noEscape_move s g name _ _ hI (by simp) (by simp)
  | stop g name =>
    obtain ⟨_, _, _, _, rfl⟩ := step_stop cfg s s' g name h
    have := noEscape_move s g name .exited [] hI (by simp) (by simp)
    exact ⟨this.1, this.2, this.3⟩
  | goexit g name e site =>
    obtain ⟨_, _, hcase⟩ := step_goexit cfg s s' g name e site h
    rcases hcase with ⟨_, ev, _, rfl⟩ | ⟨_, ev, _, rfl⟩ <;>
      exact noEscape_move s g name _ _ hI (by simp) (by simp)
  | serviceDone g name =>
    obtain ⟨_, _, hcase⟩ := step_serviceDone cfg s s' g name h
    rcases hcase with ⟨_, rfl⟩ | ⟨hu, _⟩
    · exact noEscape_move s g name _ _ hI (by simp) (by simp)
    · exact absurd hu (hI.not_unwinding g name)
  | drained g =>
    simp only [step] at h
    split at h
    · simp only [Option.some.injEq] at h
      subst h
      exact ⟨hI.not_crashed, hI.not_unwinding, hI.not_dead⟩
    · simp at h
  | cancel g =>
    simp only [step] at h
    split at h
    · simp only [Option.some.injEq] at h
      subst h
      exact ⟨hI.not_crashed, hI.not_unwinding, hI.not_dead⟩
    · simp at h
  | groupDone g =>
    simp only [step] at h
    split at h
    · simp only [Option.some.injEq] at h
      subst h
      exact ⟨hI.not_crashed, hI.not_unwinding, hI.not_dead⟩
    · simp at h
  | mainReturn =>
    simp only [step] at h
    split at h
    · simp only [Option.some.injEq] at h
      subst h
      exact ⟨hI.not_crashed, hI.not_unwinding, hI.not_dead⟩
    · simp at h
  | abort g name =>
    simp only [step] at h
    split at h
    · rename_i hg
      exact absurd hg.2.2 (hI.not_dead g name)
    · simp at h

/-! ## The order of shutdown -/

theorem members_lt (cfg : Config) (g : Nat) (name : String)
    (h : name ∈ members cfg g) : g < cfg.groups.length := by
  by_contra hlt
  have : cfg.groups[g]? = none := List.getElem?_eq_none (Nat.le_of_not_lt hlt)
  simp [members, this] at h

theorem members_ne_nil (cfg : Config) (hne : ∀ grp ∈ cfg.groups, grp ≠ [])
    (g : Nat) (hg : g < cfg.groups.length) : ∃ name, name ∈ members cfg g := by
  have hmem : cfg.groups[g] ∈ cfg.groups := List.getElem_mem hg
  have : members cfg g = cfg.groups[g] := by
    simp [members, List.getD, List.getElem?_eq_getElem hg]
  rw [this]
  exact List.exists_mem_of_ne_nil _ (hne _ hmem)

theorem stopGroups_append (l1 l2 : List (Nat × Event)) :
    stopGroups (l1 ++ l2) = stopGroups l1 ++ stopGroups l2 := by
  induction l1 with
  | nil => simp [stopGroups]
  | cons p rest ih =>
    obtain ⟨g, e⟩ := p
    cases e <;> simp [stopGroups, ih]

theorem mem_stopGroups_map (g x : Nat) (ev : List Event)
    (h : x ∈ stopGroups (ev.map (fun e => (g, e)))) :
    x = g ∧ ∃ n, Event.returned n ∈ ev := by
  induction ev with
  | nil => simp [stopGroups] at h
  | cons e rest ih =>
    cases e
    case returned n =>
      simp only [List.map_cons, stopGroups, List.mem_cons] at h
      rcases h with h | h
      · exact ⟨h, n, by simp⟩
      · obtain ⟨h1, m, hm⟩ := ih h
        exact ⟨h1, m, by simp [hm]⟩
    all_goals
      simp only [List.map_cons, stopGroups] at h
      obtain ⟨h1, m, hm⟩ := ih h
      exact ⟨h1, m, by simp [hm]⟩

theorem pairwise_of_all_eq (g : Nat) (l : List Nat) (h : ∀ x ∈ l, x = g) :
    l.Pairwise (fun a b => b ≤ a) := by
  induction l with
  | nil => exact List.Pairwise.nil
  | cons a rest ih =>
    refine List.Pairwise.cons ?_ (ih (fun x hx => h x (by simp [hx])))
    intro b hb
    rw [h a (by simp), h b (by simp [hb])]

theorem ctxDone_move (cfg : Config) (s : State) (g : Nat) (name : String)
    (st : SvcStatus) (ev : List Event) (i : Nat) :
    ctxDone cfg (s.move g name st ev) i = ctxDone cfg s i := by
  simp [ctxDone, State.move]

/-- When no group is empty, a cancelled context of a group that is not the
last means that the next group has drained and that its context is cancelled
too. -/
theorem next_group_drained (cfg : Config) (s : State)
    (hne : ∀ grp ∈ cfg.groups, grp ≠ []) (hC : Cascade cfg s)
    (hL : ∀ g name, name ∈ members cfg g →
      (s.svc g name).outOfLoop = true → ctxDone cfg s g = true)
    (i : Nat) (hi : i + 1 < cfg.groups.length) (hstop : ctxDone cfg s i = true) :
    ctxDone cfg s (i + 1) = true ∧
      ∀ name ∈ members cfg (i + 1), (s.svc (i + 1) name).finished = true := by
  have hd : s.derived i = true := by
    have hne' : i + 1 ≠ cfg.groups.length := by omega
    simpa [ctxDone, hne'] using hstop
  have hr : s.runner (i + 1) ≠ .waiting := by
    rcases hC.derived_by_next i hd with h | h <;> simp [h]
  have hfin := hC.drained_finished (i + 1) hr
  obtain ⟨name, hn⟩ := members_ne_nil cfg hne (i + 1) hi
  exact ⟨hL (i + 1) name hn (finished_outOfLoop _ (hfin name hn)), hfin⟩

theorem later_groups_drained (cfg : Config) (s : State)
    (hne : ∀ grp ∈ cfg.groups, grp ≠ []) (hC : Cascade cfg s)
    (hL : ∀ g name, name ∈ members cfg g →
      (s.svc g name).outOfLoop = true → ctxDone cfg s g = true)
    (i : Nat) (hstop : ctxDone cfg s i = true) :
    ∀ d, i + 1 + d < cfg.groups.length →
      ctxDone cfg s (i + 1 + d) = true ∧
        ∀ name ∈ members cfg (i + 1 + d), (s.svc (i + 1 + d) name).finished = true := by
  intro d
  induction d with
  | zero =>
    intro hlt
    exact next_group_drained cfg s hne hC hL i hlt hstop
  | succ d ih =>
    intro hlt
    have := ih (by omega)
    exact next_group_drained cfg s hne hC hL (i + 1 + d) hlt this.1

theorem ordered_init (cfg : Config) : Ordered cfg init := by
  constructor
  · intro g name _ h
    simp [init, SvcStatus.outOfLoop] at h
  · intro g h
    simp [init, stopGroups] at h
  · intro _
    simp [init, stopGroups]

theorem ordered_move (cfg : Config) (s : State) (g : Nat) (name : String)
    (st : SvcStatus) (ev : List Event) (hO : Ordered cfg s)
    (hst : st.outOfLoop = true → ctxDone cfg s g = true)
    (hev : (∃ n, Event.returned n ∈ ev) →
      ctxDone cfg s g = true ∧
        ((∀ grp ∈ cfg.groups, grp ≠ []) → ∀ a ∈ stopGroups s.log, g ≤ a)) :
    Ordered cfg (s.move g name st ev) := by
  obtain ⟨h1, h2, h3⟩ := hO
  refine ⟨?_, ?_, ?_⟩
  · intro g' n' hm hout
    rw [ctxDone_move]
    by_cases hc : g' = g ∧ n' = name
    · simp only [State.move, hc, and_self, if_true] at hout
      rw [hc.1]
      exact hst hout
    · simp only [State.move, hc, if_false] at hout
      exact h1 g' n' hm hout
  · intro x hx
    rw [ctxDone_move]
    simp only [State.move, stopGroups_append, List.mem_append] at hx
    rcases hx with hx | hx
    · exact h2 x hx
    · obtain ⟨rfl, hn⟩ := mem_stopGroups_map g x ev hx
      exact (hev hn).1
  · intro hne
    simp only [State.move, stopGroups_append]
    rw [List.pairwise_append]
    refine ⟨h3 hne,
      pairwise_of_all_eq g _ (fun x hx => (mem_stopGroups_map g x ev hx).1), ?_⟩
    intro a ha b hb
    obtain ⟨rfl, hn⟩ := mem_stopGroups_map g b ev hb
    exact (hev hn).2 hne a ha

theorem ordered_of_same (cfg : Config) (s s' : State) (hO : Ordered cfg s)
    (hsvc : s'.svc = s.svc) (hlog : s'.log = s.log)
    (hctx : ∀ g, ctxDone cfg s g = true → ctxDone cfg s' g = true) :
    Ordered cfg s' := by
  obtain ⟨h1, h2, h3⟩ := hO
  refine ⟨?_, ?_, ?_⟩
  · intro g name hm hout
    rw [hsvc] at hout
    exact hctx g (h1 g name hm hout)
  · intro g hg
    rw [hlog] at hg
    exact hctx g (h2 g hg)
  · intro hne
    rw [hlog]
    exact h3 hne

theorem ordered_step (cfg : Config) (s : State) (a : Action) (s' : State)
    (hC : Cascade cfg s) (hO : Ordered cfg s)
    (ha : disciplined cfg s a = true) (h : step cfg s a = some s') : Ordered cfg s' := by
  have hflag := (effectiveOptions_flags cfg.opts).2.2
  cases a with
  | cancelRoot =>
    simp only [step] at h
    split at h
    · simp only [Option.some.injEq] at h
      subst h
      refine ordered_of_same cfg s _ hO rfl rfl ?_
      intro g hg
      simp only [ctxDone] at hg ⊢
      split <;> simp_all
    · simp at h
  | enter g name e =>
    obtain ⟨_, _, _, hcase⟩ := step_enter cfg s s' g name e h
    have hp : panicHookReturns cfg.opts s (.enter g name e) = true := by
      simp only [disciplined, Bool.and_eq_true] at ha
      exact ha.1.2
    have hrec := recovered_of_hook_returns (effectiveOptions cfg.opts) name e
      (by rw [hflag]; simpa [panicHookReturns] using hp)
    rcases hcase with ⟨_, rfl⟩ | ⟨_, rfl⟩
    · refine ordered_move cfg s g name _ _ hO (by simp [SvcStatus.outOfLoop]) ?_
      rintro ⟨n, hn⟩
      exact absurd hn (fnEnter_no_return _ _ _ n)
    · refine ordered_move cfg s g name _ _ hO ?_ ?_
      · rw [hrec]
        simp [afterFn, SvcStatus.outOfLoop]
      · rintro ⟨n, hn⟩
        rw [List.mem_append] at hn
        rcases hn with hn | hn
        · exact absurd hn (fnEnter_no_return _ _ _ n)
        · exact absurd hn (afterFn_no_return _ _ n)
  | leave g name e =>
    obtain ⟨_, hm, hrun, rfl⟩ := step_leave cfg s s' g name e h
    simp only [disciplined, Bool.and_eq_true] at ha
    obtain ⟨⟨hw, hp⟩, _⟩ := ha
    have hesc := fnLeave_not_escaped (effectiveOptions cfg.opts) name e
      (by rw [hflag]; simpa [panicHookReturns] using hp)
    have hwait : e.run = .ok → ctxDone cfg s g = true := by
      intro hok
      simpa [servicesWait, hok] using hw
    refine ordered_move cfg s g name _ _ hO ?_ ?_
    · intro hout
      rcases hr : (fnLeave (effectiveOptions cfg.opts) name e).2 with b | _
      · cases b
        · exact hwait (fnLeave_false _ _ _ hr)
        · simp [hr, afterFn, SvcStatus.outOfLoop] at hout
      · exact absurd hr hesc
    · rintro ⟨n, hn⟩
      rw [List.mem_append] at hn
      have hok : e.run = .ok := by
        rcases hn with hn | hn
        · exact fnLeave_return _ _ _ n hn
        · exact absurd hn (afterFn_no_return _ _ n)
      refine ⟨hwait hok, ?_⟩
      intro hne x hx
      by_contra hlt
      have hxg : x < g := Nat.lt_of_not_le hlt
      obtain ⟨d, rfl⟩ : ∃ d, g = x + 1 + d := ⟨g - x - 1, by omega⟩
      have hlen := members_lt cfg _ name hm
      have := (later_groups_drained cfg s hne hC hO.left_after_stop x
        (hO.stops_after_stop x hx) d hlen).2 name hm
      simp [hrun, SvcStatus.finished] at this
  | timer g name =>
    obtain ⟨_, _, _, rfl⟩ := step_timer cfg s s' g name h
    exact ordered_move cfg s g name _ _ hO (by simp [SvcStatus.outOfLoop]) (by simp)
  | stop g name =>
    obtain ⟨_, _, _, hctx, rfl⟩ := step_stop cfg s s' g name h
    have := ordered_move cfg s g name .exited [] hO (fun _ => hctx) (by simp)
    exact ⟨this.1, this.2, this.3⟩
  | goexit g name e site =>
    simp [disciplined, noGoexit] at ha
  | serviceDone g name =>
    obtain ⟨_, hm, hcase⟩ := step_serviceDone cfg s s' g name h
    rcases hcase with ⟨hst, rfl⟩ | ⟨hst, rfl⟩
    · exact ordered_move cfg s g name _ _ hO
        (fun _ => hO.left_after_stop g name hm (by simp [hst, SvcStatus.outOfLoop]))
        (by simp)
    · exact ordered_move cfg s g name _ _ hO
        (fun _ => hO.left_after_stop g name hm (by simp [hst, SvcStatus.outOfLoop]))
        (by simp)
  | drained g =>
    simp only [step] at h
    split at h
    · simp only [Option.some.injEq] at h
      subst h
      exact ordered_of_same cfg s _ hO rfl rfl (fun g hg => by simpa [ctxDone] using hg)
    · simp at h
  | cancel g =>
    simp only [step] at h
    split at h
    · simp only [Option.some.injEq] at h
      subst h
      refine ordered_of_same cfg s _ hO rfl rfl ?_
      intro i hi
      simp only [ctxDone] at hi ⊢
      split <;> simp_all
    · simp at h
  | groupDone g =>
    simp only [step] at h
    split at h
    · simp only [Option.some.injEq] at h
      subst h
      exact ordered_of_same cfg s _ hO rfl rfl (fun g hg => by simpa [ctxDone] using hg)
    · simp at h
  | mainReturn =>
    simp only [step] at h
    split at h
    · simp only [Option.some.injEq] at h
      subst h
      exact ordered_of_same cfg s _ hO rfl rfl (fun g hg => by simpa [ctxDone] using hg)
    · simp at h
  | abort g name =>
    simp only [step] at h
    split at h
    · simp only [Option.some.injEq] at h
      subst h
      exact ordered_of_same cfg s _ hO rfl rfl (fun g hg => by simpa [ctxDone] using hg)
    · simp at h

theorem ordered_reachable (cfg : Config) (s : State)
    (h : Reachable cfg (disciplined cfg) s) : Cascade cfg s ∧ Ordered cfg s :=
  reachable_invariant cfg (disciplined cfg) (fun s => Cascade cfg s ∧ Ordered cfg s)
    ⟨cascade_init cfg, ordered_init cfg⟩
    (fun s a s' hI ha hs =>
      ⟨cascade_step cfg s a s' hI.1 hs, ordered_step cfg s a s' hI.1 hI.2 ha hs⟩) s h

/-! ## What the exits of the loops leave behind -/

theorem stoppedIn_append_left (l1 l2 : List (Nat × Event)) (g : Nat) (name : String)
    (h : stoppedIn l1 g name = true) : stoppedIn (l1 ++ l2) g name = true := by
  simp only [stoppedIn, List.any_append, Bool.or_eq_true] at h ⊢
  exact Or.inl h

theorem stoppedIn_of_mem (l : List (Nat × Event)) (g : Nat) (name : String)
    (ev : List Event) (h : Event.returned name ∈ ev) :
    stoppedIn (l ++ ev.map (fun e => (g, e))) g name = true := by
  simp only [stoppedIn, List.any_append, Bool.or_eq_true, List.any_eq_true]
  right
  exact ⟨(g, Event.returned name), by simpa using h, by simp⟩

theorem fnLeave_false_returned (opts : Options) (name : String) (e : AttemptEnv)
    (h : (fnLeave opts name e).2 = .retry false) :
    Event.returned name ∈ (fnLeave opts name e).1 := by
  obtain ⟨rd, bs, as, ap⟩ := opts
  obtain ⟨o1, o2, o3, o4⟩ := e
  cases o2 <;> cases as <;> cases o3 <;> cases ap <;> cases o4 <;>
    simp [fnLeave, recovered] at h ⊢

theorem recorded_init : Recorded init := by
  intro g name h
  simp [init, SvcStatus.outOfLoop] at h

theorem recorded_move (s : State) (g : Nat) (name : String) (st : SvcStatus)
    (ev : List Event) (hR : Recorded s)
    (hst : st.outOfLoop = true →
      stoppedIn (s.log ++ ev.map (fun e => (g, e))) g name = true
        ∨ s.leftInPause g name = true) :
    Recorded (s.move g name st ev) := by
  intro g' n' hout
  by_cases hc : g' = g ∧ n' = name
  · obtain ⟨rfl, rfl⟩ := hc
    simp only [State.move, and_self, if_true] at hout
    exact hst hout
  · simp only [State.move, hc, if_false] at hout
    rcases hR g' n' hout with h | h
    · exact Or.inl (stoppedIn_append_left _ _ _ _ h)
    · exact Or.inr h

theorem recorded_of_same (s s' : State) (hR : Recorded s) (hsvc : s'.svc = s.svc)
    (hlog : s'.log = s.log) (hleft : s'.leftInPause = s.leftInPause) : Recorded s' := by
  intro g name hout
  rw [hsvc] at hout
  rw [hlog, hleft]
  exact hR g name hout

theorem recorded_step (cfg : Config) (s : State) (a : Action) (s' : State)
    (hR : Recorded s) (ha : disciplined cfg s a = true)
    (h : step cfg s a = some s') : Recorded s' := by
  have hflag := (effectiveOptions_flags cfg.opts).2.2
  cases a with
  | cancelRoot =>
    simp only [step] at h
    split at h
    · simp only [Option.some.injEq] at h
      subst h
      exact recorded_of_same s _ hR rfl rfl rfl
    · simp at h
  | enter g name e =>
    obtain ⟨_, _, _, hcase⟩ := step_enter cfg s s' g name e h
    have hp : panicHookReturns cfg.opts s (.enter g name e) = true := by
      simp only [disciplined, Bool.and_eq_true] at ha
      exact ha.1.2
    have hrec := recovered_of_hook_returns (effectiveOptions cfg.opts) name e
      (by rw [hflag]; simpa [panicHookReturns] using hp)
    rcases hcase with ⟨_, rfl⟩ | ⟨_, rfl⟩
    · exact recorded_move s g name _ _ hR (by simp [SvcStatus.outOfLoop])
    · refine recorded_move s g name _ _ hR ?_
      rw [hrec]
      simp [afterFn, SvcStatus.outOfLoop]
  | leave g name e =>
    obtain ⟨_, _, _, rfl⟩ := step_leave cfg s s' g name e h
    simp only [disciplined, Bool.and_eq_true] at ha
    obtain ⟨⟨_, hp⟩, _⟩ := ha
    have hesc := fnLeave_not_escaped (effectiveOptions cfg.opts) name e
      (by rw [hflag]; simpa [panicHookReturns] using hp)
    refine recorded_move s g name _ _ hR ?_
    intro hout
    rcases hr : (fnLeave (effectiveOptions cfg.opts) name e).2 with b | _
    · cases b
      · left
        rw [List.map_append, ← List.append_assoc]
        exact stoppedIn_append_left _ _ _ _
          (stoppedIn_of_mem s.log g name _ (fnLeave_false_returned _ _ _ hr))
      · simp [hr, afterFn, SvcStatus.outOfLoop] at hout
    · exact absurd hr hesc
  | timer g name =>
    obtain ⟨_, _, _, rfl⟩ := step_timer cfg s s' g name h
    exact recorded_move s g name _ _ hR (by simp [SvcStatus.outOfLoop])
  | stop g name =>
    obtain ⟨_, _, _, _, rfl⟩ := step_stop cfg s s' g name h
    intro g' n' hout
    by_cases hc : g' = g ∧ n' = name
    · right
      simp [State.mark, hc]
    · simp only [State.mark, State.move, hc, if_false] at hout ⊢
      simpa using hR g' n' hout
  | goexit g name e site =>
    simp [disciplined, noGoexit] at ha
  | serviceDone g name =>
    obtain ⟨_, _, hcase⟩ := step_serviceDone cfg s s' g name h
    rcases hcase with ⟨hst, rfl⟩ | ⟨hst, rfl⟩ <;>
    · refine recorded_move s g name _ _ hR (fun _ => ?_)
      rcases hR g name (by simp [hst, SvcStatus.outOfLoop]) with h1 | h1
      · exact Or.inl (stoppedIn_append_left _ _ _ _ h1)
      · exact Or.inr h1
  | drained g =>
    simp only [step] at h
    split at h
    · simp only [Option.some.injEq] at h
      subst h
      exact recorded_of_same s _ hR rfl rfl rfl
    · simp at h
  | cancel g =>
    simp only [step] at h
    split at h
    · simp only [Option.some.injEq] at h
      subst h
      exact recorded_of_same s _ hR rfl rfl rfl
    · simp at h
  | groupDone g =>
    simp only [step] at h
    split at h
    · simp only [Option.some.injEq] at h
      subst h
      exact recorded_of_same s _ hR rfl rfl rfl
    · simp at h
  | mainReturn =>
    simp only [step] at h
    split at h
    · simp only [Option.some.injEq] at h
      subst h
      exact recorded_of_same s _ hR rfl rfl rfl
    · simp at h
  | abort g name =>
    simp only [step] at h
    split at h
    · simp only [Option.some.injEq] at h
      subst h
      exact recorded_of_same s _ hR rfl rfl rfl
    · simp at h

theorem recorded_reachable (cfg : Config) (s : State)
    (h : Reachable cfg (disciplined cfg) s) : Recorded s :=
  reachable_invariant cfg (disciplined cfg) Recorded recorded_init
    (fun s a s' hI ha hs => recorded_step cfg s a s' hI ha hs) s h

theorem pairOrderlyEnd_reachable :
    Reachable pairConfig (disciplined pairConfig) pairOrderlyEnd :=
  ⟨pairOrderly, rfl⟩

/-- C2 as stated fails. In `pairStopped`, reached by an execution in which
services return only after their stop signal, the service of group 0 has
recorded its stop while the service `S2` of group 1 has recorded none: it
panicked once and the stop signal won the pause that followed. -/
theorem every_later_service_records_stop_fails :
    ¬ (∀ (cfg : Config) (s : State), 2 ≤ cfg.groups.length →
        (∀ grp ∈ cfg.groups, grp ≠ []) → Reachable cfg (disciplined cfg) s →
        ∀ i j, i < j → j < cfg.groups.length → i ∈ stopGroups s.log →
          ∀ name ∈ members cfg j, stoppedIn s.log j name = true) := by
  intro h
  have h1 := h pairConfig pairStopped (by decide) (by decide) pairStopped_reachable
    0 1 (by decide) (by decide)
    (show 0 ∈ stopGroups pairStopped.log from by
      have : stopGroups pairStopped.log = [0] := rfl
      simp [this])
    "S2" (by simp [members, pairConfig])
  have h2 : stoppedIn pairStopped.log 1 "S2" = false := rfl
  rw [h2] at h1
  exact Bool.noConfusion h1

/-- C2, the two further premises of the amended statement are needed. Both
runs keep the original premises (non-empty groups, services return normally
only after their stop signal). In `tripleHookPanicEnd` the hook `AfterServicePanic`
panics after a panic of `S2`: the deferred `wg.Done()` of the dying goroutine
lets group 1 drain, and a stop of group 0 is logged before a stop of group 2.
In `tripleGoexitEnd` the service `S2` ends its goroutine with
`runtime.Goexit()`, with the same result. -/
theorem stop_order_needs_each_premise :
    (Reachable tripleHooked (waitingPlain tripleHooked) tripleHookPanicEnd
      ∧ stopGroups tripleHookPanicEnd.log = [0, 2]
      ∧ ¬ (stopGroups tripleHookPanicEnd.log).Pairwise (fun a b => b ≤ a))
    ∧ (Reachable tripleConfig (waitingHooked tripleConfig) tripleGoexitEnd
      ∧ stopGroups tripleGoexitEnd.log = [0, 2]
      ∧ ¬ (stopGroups tripleGoexitEnd.log).Pairwise (fun a b => b ≤ a)) := by
  have h1 : stopGroups tripleHookPanicEnd.log = [0, 2] := rfl
  have h2 : stopGroups tripleGoexitEnd.log = [0, 2] := rfl
  refine ⟨⟨⟨tripleHookPanic, rfl⟩, h1, ?_⟩, ⟨⟨tripleGoexit, rfl⟩, h2, ?_⟩⟩
  · rw [h1]
    simp
  · rw [h2]
    simp

/-- C2, amended. For groups none of which is empty, in every state of an
execution in which every service returns normally only after its stop signal
is triggered (it may panic at any time), `AfterServicePanic`, if supplied,
returns normally, and nothing calls `runtime.Goexit()`: (1) the group indices
of the recorded stops never increase along the log, so every stop of group
`j` precedes every stop of group `i` for `i < j`; (2) once a service of group
`i` has recorded its stop, every service goroutine of every later group `j`
is out of its retry loop, has called `wg.Done()`, and has recorded its stop
unless it left the loop through a pause that the stop signal won. -/
theorem stops_in_reverse_group_order (cfg : Config) (s : State)
    (hne : ∀ grp ∈ cfg.groups, grp ≠ [])
    (hreach : Reachable cfg (disciplined cfg) s) :
    (stopGroups s.log).Pairwise (fun a b => b ≤ a)
    ∧ ∀ i j, i < j → j < cfg.groups.length → i ∈ stopGroups s.log →
        ∀ name ∈ members cfg j,
          (s.svc j name).outOfLoop = true ∧ (s.svc j name).finished = true
            ∧ (stoppedIn s.log j name = true ∨ s.leftInPause j name = true) := by
  obtain ⟨hC, hO⟩ := ordered_reachable cfg s hreach
  have hR := recorded_reachable cfg s hreach
  refine ⟨hO.stops_ordered hne, ?_⟩
  intro i j hij hj hi name hn
  obtain ⟨d, rfl⟩ : ∃ d, j = i + 1 + d := ⟨j - i - 1, by omega⟩
  have := (later_groups_drained cfg s hne hC hO.left_after_stop i
    (hO.stops_after_stop i hi) d hj).2 name hn
  exact ⟨finished_outOfLoop _ this, this, hR _ name (finished_outOfLoop _ this)⟩

/-- C2, witness: `pairOrderlyEnd`, whose log holds a stop of group 1 followed
by a stop of group 0. -/
theorem stops_in_reverse_group_order_witness :
    (stopGroups pairOrderlyEnd.log).Pairwise (fun a b => b ≤ a)
    ∧ ∀ i j, i < j → j < pairConfig.groups.length → i ∈ stopGroups pairOrderlyEnd.log →
        ∀ name ∈ members pairConfig j,
          (pairOrderlyEnd.svc j name).outOfLoop = true
            ∧ (pairOrderlyEnd.svc j name).finished = true
            ∧ (stoppedIn pairOrderlyEnd.log j name = true
              ∨ pairOrderlyEnd.leftInPause j name = true) :=
  stops_in_reverse_group_order pairConfig pairOrderlyEnd (by decide)
    pairOrderlyEnd_reachable

/-! ## Panics of a service never leave the loop -/

theorem attempt_not_escaped (opts : Options) (name : String) (e : AttemptEnv)
    (hooks : e.hooksOk opts = true) : (runServiceFn opts name e).2 ≠ .escaped := by
  cases hr : e.run
  · rw [attempt_of_return opts name e hooks hr]
    simp
  · rw [attempt_of_panic opts name e hooks hr]
    simp

theorem retry_returns_of_no_escape (race : Nat → PauseOutcome) (intv : Int)
    (fn : Nat → List Event × AttemptResult) (hfn : ∀ n, (fn n).2 ≠ .escaped) :
    ∀ fuel n tr r, retry race intv fn fuel n = some (tr, r) → r = .returned := by
  intro fuel
  induction fuel with
  | zero => intro n tr r h; simp [retry] at h
  | succ fuel ih =>
    intro n tr r h
    rcases hf : fn n with ⟨ev, res⟩
    rcases res with b | _
    · cases b
      · simp [retry, hf] at h
        exact h.2.symm
      · cases hr : race n
        · cases hrest : retry race intv fn fuel (n + 1) with
          | none => simp [retry, hf, hr, hrest] at h
          | some p =>
            obtain ⟨rest, r'⟩ := p
            simp [retry, hf, hr, hrest] at h
            rw [← h.2]
            exact ih (n + 1) rest r' hrest
        · simp [retry, hf, hr] at h
          exact h.2.symm
    · have := hfn n
      simp [hf] at this

theorem hooksReturn_panicHook (opts : Options) (s : State) (a : Action)
    (h : hooksReturn opts s a = true) : panicHookReturns opts s a = true := by
  cases a <;> simp_all [hooksReturn, panicHookReturns, AttemptEnv.hooksOk]

/-- C4. For every `Options` value, with any of the hooks nil, whose supplied
hooks return normally: (1) an attempt in which `service.Run` panics ends
inside the closure with `retry = true`, after calling `AfterServicePanic` if
it is supplied; (2) whenever the retry loop ends, it ends by returning, never
by a panic passing through it; (3) in every state of every execution of
`Run`, whatever the services do, the process has not crashed and no service
goroutine is unwinding from a panic or dead. -/
theorem service_panic_is_absorbed (opts : Options) :
    (∀ name e, e.hooksOk opts = true → e.run = .panic →
      runServiceFn opts name e =
        (hookCall opts.BeforeServiceStart (Event.beforeStart name) ++ [Event.invoke name]
          ++ hookCall opts.AfterServicePanic (Event.afterPanic name), .retry true))
    ∧ (∀ name env race fuel tr r, (∀ n, (env n).hooksOk opts = true) →
        runService opts name env race fuel = some (tr, r) → r = .returned)
    ∧ (∀ groups s, Reachable ⟨opts, groups⟩ (hooksReturn opts) s →
        s.crashed = false ∧ ∀ g name, s.svc g name ≠ .unwinding ∧ s.svc g name ≠ .dead) := by
  refine ⟨fun name e h1 h2 => attempt_of_panic opts name e h1 h2, ?_, ?_⟩
  · intro name env race fuel tr r hooks h
    exact retry_returns_of_no_escape race _ _
      (fun n => attempt_not_escaped opts name (env n) (hooks n)) fuel 0 tr r h
  · intro groups s hreach
    have := reachable_invariant ⟨opts, groups⟩ (hooksReturn opts) NoEscape noEscape_init
      (fun s a s' hI ha hs =>
        noEscape_step ⟨opts, groups⟩ s a s' hI (hooksReturn_panicHook opts s a ha) hs)
      s hreach
    exact ⟨this.not_crashed, fun g name => ⟨this.not_unwinding g name, this.not_dead g name⟩⟩

/-- C4, witness: no hooks at all, a service that panics. -/
theorem service_panic_is_absorbed_witness :
    runServiceFn ⟨1000000, false, false, false⟩ "S2" faulty =
        (hookCall false (Event.beforeStart "S2") ++ [Event.invoke "S2"]
          ++ hookCall false (Event.afterPanic "S2"), .retry true)
    ∧ (pairStopped.crashed = false
        ∧ ∀ g name, pairStopped.svc g name ≠ .unwinding ∧ pairStopped.svc g name ≠ .dead) :=
  ⟨(service_panic_is_absorbed ⟨1000000, false, false, false⟩).1 "S2" faulty rfl rfl,
    (service_panic_is_absorbed ⟨1000000, false, false, false⟩).2.2 [["S1"], ["S2"]]
      pairStopped ⟨pairPanicThenStop, rfl⟩⟩

/-! ## The duration of the pause -/

theorem effective_duration (opts : Options) :
    (effectiveOptions opts).RecoverDuration = expectedPause opts := by
  unfold effectiveOptions expectedPause defaultRecoverDuration
  by_cases h : opts.RecoverDuration ≤ 0
  · have h' : ¬ 0 < opts.RecoverDuration := by omega
    simp [h, h']
  · have h' : 0 < opts.RecoverDuration := by omega
    simp [h, h']

theorem fnEnter_no_pause (opts : Options) (name : String) (e : AttemptEnv) (d : Int) :
    Event.pause d ∉ (fnEnter opts name e).1 := by
  obtain ⟨rd, bs, as, ap⟩ := opts
  obtain ⟨o1, o2, o3, o4⟩ := e
  cases bs <;> cases o1 <;> cases ap <;> cases o4 <;> simp [fnEnter, recovered]

theorem fnLeave_no_pause (opts : Options) (name : String) (e : AttemptEnv) (d : Int) :
    Event.pause d ∉ (fnLeave opts name e).1 := by
  obtain ⟨rd, bs, as, ap⟩ := opts
  obtain ⟨o1, o2, o3, o4⟩ := e
  cases o2 <;> cases as <;> cases o3 <;> cases ap <;> cases o4 <;>
    simp [fnLeave, recovered]

theorem attempt_no_pause (opts : Options) (name : String) (e : AttemptEnv) (d : Int) :
    Event.pause d ∉ (runServiceFn opts name e).1 := by
  have h1 := fnEnter_no_pause opts name e d
  have h2 := fnLeave_no_pause opts name e d
  unfold runServiceFn
  rcases hfe : fnEnter opts name e with ⟨ev, _ | r⟩
  · rw [hfe] at h1
    simp only [List.mem_append, not_or]
    exact ⟨h1, h2⟩
  · rw [hfe] at h1
    exact h1

theorem afterFn_pause (intv d : Int) (r : AttemptResult)
    (h : Event.pause d ∈ (afterFn intv r).2) : d = intv := by
  rcases r with b | _
  · cases b <;> simp [afterFn] at h
    exact h
  · simp [afterFn] at h

theorem retry_pauses (race : Nat → PauseOutcome) (intv : Int)
    (fn : Nat → List Event × AttemptResult)
    (hfn : ∀ n d, Event.pause d ∉ (fn n).1) :
    ∀ fuel n tr r, retry race intv fn fuel n = some (tr, r) →
      ∀ d, Event.pause d ∈ tr → d = intv := by
  intro fuel
  induction fuel with
  | zero => intro n tr r h; simp [retry] at h
  | succ fuel ih =>
    intro n tr r h d hd
    have hno := hfn n d
    rcases hf : fn n with ⟨ev, res⟩
    rw [hf] at hno
    rcases res with b | _
    · cases b
      · simp [retry, hf] at h
        rw [← h.1] at hd
        exact absurd hd hno
      · cases hr : race n
        · cases hrest : retry race intv fn fuel (n + 1) with
          | none => simp [retry, hf, hr, hrest] at h
          | some p =>
            obtain ⟨rest, r'⟩ := p
            simp [retry, hf, hr, hrest] at h
            rw [← h.1] at hd
            simp only [List.mem_append, List.mem_cons, Event.pause.injEq] at hd
            rcases hd with hd | hd | hd
            · exact absurd hd hno
            · exact hd
            · exact ih (n + 1) rest r' hrest d hd
        · simp [retry, hf, hr] at h
          rw [← h.1] at hd
          simp only [List.mem_append, List.mem_singleton, Event.pause.injEq] at hd
          rcases hd with hd | hd
          · exact absurd hd hno
          · exact hd
    · simp [retry, hf] at h
      rw [← h.1] at hd
      exact absurd hd hno

theorem step_log (cfg : Config) (s s' : State) (a : Action)
    (h : step cfg s a = some s') :
    ∃ (g : Nat) (ev : List Event), s'.log = s.log ++ ev.map (fun e => (g, e)) ∧
      ∀ d, Event.pause d ∈ ev → d = (effectiveOptions cfg.opts).RecoverDuration := by
  cases a with
  | enter g name e =>
    obtain ⟨_, _, _, hcase⟩ := step_enter cfg s s' g name e h
    rcases hcase with ⟨_, rfl⟩ | ⟨_, rfl⟩
    · exact ⟨g, _, rfl, fun d hd => absurd hd (fnEnter_no_pause _ _ _ d)⟩
    · refine ⟨g, _, rfl, fun d hd => ?_⟩
      rw [List.mem_append] at hd
      rcases hd with hd | hd
      · exact absurd hd (fnEnter_no_pause _ _ _ d)
      · exact afterFn_pause _ _ _ hd
  | leave g name e =>
    obtain ⟨_, _, _, rfl⟩ := step_leave cfg s s' g name e h
    refine ⟨g, _, rfl, fun d hd => ?_⟩
    rw [List.mem_append] at hd
    rcases hd with hd | hd
    · exact absurd hd (fnLeave_no_pause _ _ _ d)
    · exact afterFn_pause _ _ _ hd
  | timer g name =>
    obtain ⟨_, _, _, rfl⟩ := step_timer cfg s s' g name h
    exact ⟨g, [], rfl, by simp⟩
  | stop g name =>
    obtain ⟨_, _, _, _, rfl⟩ := step_stop cfg s s' g name h
    exact ⟨g, [], rfl, by simp⟩
  | goexit g name e site =>
    obtain ⟨_, _, hcase⟩ := step_goexit cfg s s' g name e site h
    rcases hcase with ⟨_, ev, hev, rfl⟩ | ⟨_, ev, hev, rfl⟩
    · exact ⟨g, ev, rfl, fun d hd => absurd hd (goexit_no_pause _ _ _ _ _ d (Or.inl hev))⟩
    · exact ⟨g, ev, rfl, fun d hd => absurd hd (goexit_no_pause _ _ _ _ _ d (Or.inr hev))⟩
  | serviceDone g name =>
    obtain ⟨_, _, hcase⟩ := step_serviceDone cfg s s' g name h
    rcases hcase with ⟨_, rfl⟩ | ⟨_, rfl⟩ <;> exact ⟨g, [], rfl, by simp⟩
  | cancelRoot =>
    simp only [step] at h
    split at h
    · simp only [Option.some.injEq] at h
      subst h
      exact ⟨0, [], by simp, by simp⟩
    · simp at h
  | drained g =>
    simp only [step] at h
    split at h
    · simp only [Option.some.injEq] at h
      subst h
      exact ⟨0, [], by simp, by simp⟩
    · simp at h
  | cancel g =>
    simp only [step] at h
    split at h
    · simp only [Option.some.injEq] at h
      subst h
      exact ⟨0, [], by simp, by simp⟩
    · simp at h
  | groupDone g =>
    simp only [step] at h
    split at h
    · simp only [Option.some.injEq] at h
      subst h
      exact ⟨0, [], by simp, by simp⟩
    · simp at h
  | mainReturn =>
    simp only [step] at h
    split at h
    · simp only [Option.some.injEq] at h
      subst h
      exact ⟨0, [], by simp, by simp⟩
    · simp at h
  | abort g name =>
    simp only [step] at h
    split at h
    · simp only [Option.some.injEq] at h
      subst h
      exact ⟨0, [], by simp, by simp⟩
    · simp at h

/-- C7. For every `Options` value, a service goroutine started by `Run`
pauses for `opts.RecoverDuration` when that is positive and for three seconds
(3000000000 ns) when it is zero or negative: (1) every pause in the trace of
a retry loop that ends has that duration; (2) every pause logged in any state
of any execution of `Run` has that duration; (3) after an attempt that
reports `retry = true` (a caught panic) the loop pauses for that duration,
and returns if the stop signal wins; (4) if the timer wins, the next attempt
follows a pause of that duration. -/
theorem pause_is_recover_duration_or_default (opts : Options) :
    (∀ name env race fuel tr r,
      runServiceUnderRun opts name env race fuel = some (tr, r) →
      ∀ d, Event.pause d ∈ tr →
        d = if 0 < opts.RecoverDuration then opts.RecoverDuration else 3000000000)
    ∧ (∀ groups s, Reachable ⟨opts, groups⟩ anyAct s →
      ∀ g d, (g, Event.pause d) ∈ s.log →
        d = if 0 < opts.RecoverDuration then opts.RecoverDuration else 3000000000)
    ∧ (∀ name env race fuel ev,
      runServiceFn (effectiveOptions opts) name (env 0) = (ev, .retry true) →
      race 0 = .stop →
      runServiceUnderRun opts name env race (fuel + 1) =
        some (ev ++ [Event.pause
          (if 0 < opts.RecoverDuration then opts.RecoverDuration else 3000000000)],
          .returned))
    ∧ (∀ name env race fuel ev tr r,
      runServiceFn (effectiveOptions opts) name (env 0) = (ev, .retry true) →
      race 0 = .timer →
      runServiceUnderRun opts name env race (fuel + 2) = some (tr, r) →
      (ev ++ [Event.pause
          (if 0 < opts.RecoverDuration then opts.RecoverDuration else 3000000000)]
        ++ (runServiceFn (effectiveOptions opts) name (env 1)).1) <+: tr) := by
  have hd := effective_duration opts
  unfold expectedPause at hd
  refine ⟨?_, ?_, ?_, ?_⟩
  · intro name env race fuel tr r h d hmem
    rw [← hd]
    exact retry_pauses race _ _ (fun n d => attempt_no_pause _ name (env n) d)
      fuel 0 tr r h d hmem
  · intro groups s hreach
    rw [← hd]
    refine reachable_invariant ⟨opts, groups⟩ anyAct
      (fun s => ∀ g d, (g, Event.pause d) ∈ s.log →
        d = (effectiveOptions opts).RecoverDuration) ?_ ?_ s hreach
    · intro g d h
      simp [init] at h
    · intro s a s' hI _ hs g d hmem
      obtain ⟨g', ev, hlog, hev⟩ := step_log ⟨opts, groups⟩ s s' a hs
      rw [hlog, List.mem_append] at hmem
      rcases hmem with hmem | hmem
      · exact hI g d hmem
      · simp only [List.mem_map, Prod.mk.injEq] at hmem
        obtain ⟨e, he, _, rfl⟩ := hmem
        exact hev d he
  · intro name env race fuel ev hev hr
    rw [← hd]
    exact retry_stop_wins race _
      (fun n => runServiceFn (effectiveOptions opts) name (env n)) fuel 0 ev hev hr
  · intro name env race fuel ev tr r hev hr h
    rw [← hd]
    unfold runServiceUnderRun runService at h
    rw [retry_timer_wins race _
      (fun n => runServiceFn (effectiveOptions opts) name (env n)) (fuel + 1) 0 ev hev hr] at h
    cases hrest : retry race (effectiveOptions opts).RecoverDuration
        (fun n => runServiceFn (effectiveOptions opts) name (env n)) (fuel + 1) (0 + 1) with
    | none => simp [hrest] at h
    | some p =>
      obtain ⟨rest, r'⟩ := p
      simp only [hrest, Option.some.injEq, Prod.mk.injEq] at h
      obtain ⟨t, ht⟩ := retry_trace_starts_with_attempt race _ _ fuel (0 + 1) rest r' hrest
      rw [← h.1]
      exact ⟨t, by simp [← ht, List.append_assoc]⟩

/-- C7, witness: with `RecoverDuration = 0` and a service that panics once,
the pause lasts three seconds. -/
theorem pause_is_recover_duration_or_default_witness :
    runServiceUnderRun ⟨0, false, false, false⟩ "S3" (fun _ => faulty) (fun _ => .stop)
        (0 + 1) =
      some ([Event.invoke "S3"] ++ [Event.pause
          (if 0 < (0 : Int) then 0 else 3000000000)], .returned) :=
  (pause_is_recover_duration_or_default ⟨0, false, false, false⟩).2.2.1 "S3"
    (fun _ => faulty) (fun _ => .stop) 0 [Event.invoke "S3"] rfl rfl

/-! ## `Run` returns once every service is out of its loop -/

theorem exec_append (cfg : Config) (allowed : State → Action → Bool)
    (a1 a2 : List Action) (s s1 s2 : State)
    (h1 : exec cfg allowed s a1 = some s1) (h2 : exec cfg allowed s1 a2 = some s2) :
    exec cfg allowed s (a1 ++ a2) = some s2 := by
  induction a1 generalizing s with
  | nil =>
    simp [exec] at h1
    subst h1
    simpa using h2
  | cons a rest ih =>
    by_cases ha : allowed s a = true
    · cases hs : step cfg s a with
      | none => simp [exec, ha, hs] at h1
      | some t =>
        simp only [exec, ha, hs, if_true] at h1
        simp only [List.cons_append, exec, ha, hs, if_true]
        exact ih t h1
    · simp [exec, ha] at h1

theorem leads_refl (cfg : Config) (s : State) (hc : s.crashed = false) : Leads cfg s s :=
  ⟨⟨[], rfl⟩, ⟨hc, fun _ _ h => h, fun _ _ h => h, fun _ h => h, fun h => h, rfl, rfl⟩⟩

theorem leads_trans (cfg : Config) (s s1 s2 : State) (h1 : Leads cfg s s1)
    (h2 : Leads cfg s1 s2) : Leads cfg s s2 := by
  obtain ⟨⟨a1, e1⟩, A1⟩ := h1
  obtain ⟨⟨a2, e2⟩, A2⟩ := h2
  exact ⟨⟨a1 ++ a2, exec_append cfg _ a1 a2 s s1 s2 e1 e2⟩,
    ⟨A2.not_crashed, fun g n h => A2.out g n (A1.out g n h),
      fun g n h => A2.fin g n (A1.fin g n h), fun g h => A2.run g (A1.run g h),
      fun h => A2.ret (A1.ret h), A2.log_eq.trans A1.log_eq,
      A2.root_eq.trans A1.root_eq⟩⟩

theorem leads_step (cfg : Config) (s s' : State) (a : Action)
    (ha : disciplined cfg s a = true) (hs : step cfg s a = some s')
    (hadv : Advances s s') : Leads cfg s s' :=
  ⟨⟨[a], by simp [exec, ha, hs]⟩, hadv⟩

theorem advances_move (s : State) (g : Nat) (name : String) (st : SvcStatus)
    (hc : s.crashed = false)
    (hout : (s.svc g name).outOfLoop = true → st.outOfLoop = true)
    (hfin : (s.svc g name).finished = true → st.finished = true) :
    Advances s (s.move g name st []) := by
  refine ⟨hc, ?_, ?_, fun _ h => h, fun h => h, by simp [State.move], rfl⟩
  · intro g' n' h
    by_cases hcase : g' = g ∧ n' = name
    · obtain ⟨rfl, rfl⟩ := hcase
      simpa [State.move] using hout h
    · simpa [State.move, hcase] using h
  · intro g' n' h
    by_cases hcase : g' = g ∧ n' = name
    · obtain ⟨rfl, rfl⟩ := hcase
      simpa [State.move] using hfin h
    · simpa [State.move, hcase] using h

theorem leads_service_finished (cfg : Config) (s : State) (g : Nat) (name : String)
    (hc : s.crashed = false) (hm : name ∈ members cfg g)
    (hout : (s.svc g name).outOfLoop = true) :
    ∃ s', Leads cfg s s' ∧ (s'.svc g name).finished = true := by
  cases hst : s.svc g name
  case loop => simp [hst, SvcStatus.outOfLoop] at hout
  case running => simp [hst, SvcStatus.outOfLoop] at hout
  case pausing => simp [hst, SvcStatus.outOfLoop] at hout
  case exited =>
    refine ⟨s.move g name .done [], leads_step cfg s _ (.serviceDone g name) rfl
      (by simp [step, hc, hm, hst]) (advances_move s g name .done hc (fun _ => rfl)
        (fun _ => rfl)), ?_⟩
    simp [State.move, SvcStatus.finished]
  case unwinding =>
    refine ⟨s.move g name .dead [], leads_step cfg s _ (.serviceDone g name) rfl
      (by simp [step, hc, hm, hst]) (advances_move s g name .dead hc (fun _ => rfl)
        (fun _ => rfl)), ?_⟩
    simp [State.move, SvcStatus.finished]
  case done => exact ⟨s, leads_refl cfg s hc, by simp [hst, SvcStatus.finished]⟩
  case dead => exact ⟨s, leads_refl cfg s hc, by simp [hst, SvcStatus.finished]⟩

theorem leads_names_finished (cfg : Config) (g : Nat) :
    ∀ (names : List String) (s : State), s.crashed = false →
      (∀ n ∈ names, n ∈ members cfg g) →
      (∀ n ∈ names, (s.svc g n).outOfLoop = true) →
      ∃ s', Leads cfg s s' ∧ ∀ n ∈ names, (s'.svc g n).finished = true := by
  intro names
  induction names with
  | nil => intro s hc _ _; exact ⟨s, leads_refl cfg s hc, by simp⟩
  | cons n rest ih =>
    intro s hc hm hout
    obtain ⟨s1, hl1, hf1⟩ := leads_service_finished cfg s g n hc (hm n (by simp))
      (hout n (by simp))
    obtain ⟨s2, hl2, hf2⟩ := ih s1 hl1.2.not_crashed
      (fun m hmem => hm m (by simp [hmem]))
      (fun m hmem => hl1.2.out g m (hout m (by simp [hmem])))
    refine ⟨s2, leads_trans cfg s s1 s2 hl1 hl2, ?_⟩
    intro m hmem
    rcases List.mem_cons.mp hmem with rfl | hmem
    · exact hl2.2.fin g m hf1
    · exact hf2 m hmem

theorem leads_services_finished (cfg : Config) :
    ∀ (k : Nat) (s : State), s.crashed = false →
      (∀ g name, name ∈ members cfg g → (s.svc g name).outOfLoop = true) →
      ∃ s', Leads cfg s s' ∧
        ∀ g < k, ∀ name ∈ members cfg g, (s'.svc g name).finished = true := by
  intro k
  induction k with
  | zero => intro s hc _; exact ⟨s, leads_refl cfg s hc, by simp⟩
  | succ k ih =>
    intro s hc hout
    obtain ⟨s1, hl1, hf1⟩ := ih s hc hout
    obtain ⟨s2, hl2, hf2⟩ := leads_names_finished cfg k (members cfg k) s1
      hl1.2.not_crashed (fun n h => h) (fun n h => hl1.2.out k n (hout k n h))
    refine ⟨s2, leads_trans cfg s s1 s2 hl1 hl2, ?_⟩
    intro g hg name hn
    by_cases hgk : g = k
    · subst hgk
      exact hf2 name hn
    · exact hl2.2.fin g name (hf1 g (by omega) name hn)

theorem leads_runner_done (cfg : Config) (s : State) (g : Nat)
    (hc : s.crashed = false) (hg : g < cfg.groups.length)
    (hfin : ∀ name ∈ members cfg g, (s.svc g name).finished = true) :
    ∃ s', Leads cfg s s' ∧ s'.runner g = .done := by
  have toCancelled : ∀ t : State, t.crashed = false → t.runner g = .cancelled →
      ∃ s', Leads cfg t s' ∧ s'.runner g = .done := by
    intro t htc ht
    refine ⟨{ t with runner := fun g' => if g' = g then .done else t.runner g' },
      leads_step cfg t _ (.groupDone g) rfl (by simp [step, htc, hg, ht])
        ⟨htc, fun _ _ h => h, fun _ _ h => h, ?_, fun h => h, rfl, rfl⟩, by simp⟩
    intro g' h
    by_cases hgg : g' = g <;> simp [hgg, h]
  have toDrained : ∀ t : State, t.crashed = false → t.runner g = .drained →
      ∃ s', Leads cfg t s' ∧ s'.runner g = .done := by
    intro t htc ht
    have hl : Leads cfg t { t with
        runner := fun g' => if g' = g then .cancelled else t.runner g'
        derived := fun i => if i + 1 = g then true else t.derived i } := by
      refine leads_step cfg t _ (.cancel g) rfl (by simp [step, htc, hg, ht])
        ⟨htc, fun _ _ h => h, fun _ _ h => h, ?_, fun h => h, rfl, rfl⟩
      intro g' h
      by_cases hgg : g' = g
      · subst hgg
        simp [ht] at h
      · simp [hgg, h]
    obtain ⟨s', hl', hd⟩ := toCancelled _ hl.2.not_crashed (by simp)
    exact ⟨s', leads_trans cfg _ _ _ hl hl', hd⟩
  cases hst : s.runner g
  case waiting =>
    have hl : Leads cfg s { s with
        runner := fun g' => if g' = g then .drained else s.runner g' } := by
      refine leads_step cfg s _ (.drained g) rfl ?_
        ⟨hc, fun _ _ h => h, fun _ _ h => h, ?_, fun h => h, rfl, rfl⟩
      · simp only [step]
        rw [if_pos ⟨hc, hg, hst, hfin⟩]
      · intro g' h
        by_cases hgg : g' = g
        · subst hgg
          simp [hst] at h
        · simp [hgg, h]
    obtain ⟨s', hl', hd⟩ := toDrained _ hl.2.not_crashed (by simp)
    exact ⟨s', leads_trans cfg _ _ _ hl hl', hd⟩
  case drained => exact toDrained s hc hst
  case cancelled => exact toCancelled s hc hst
  case done => exact ⟨s, leads_refl cfg s hc, hst⟩

theorem leads_runners_done (cfg : Config) :
    ∀ (k : Nat), k ≤ cfg.groups.length → ∀ (s : State), s.crashed = false →
      (∀ g name, name ∈ members cfg g → (s.svc g name).finished = true) →
      ∃ s', Leads cfg s s' ∧ ∀ g < k, s'.runner g = .done := by
  intro k
  induction k with
  | zero => intro _ s hc _; exact ⟨s, leads_refl cfg s hc, by simp⟩
  | succ k ih =>
    intro hk s hc hfin
    obtain ⟨s1, hl1, hd1⟩ := ih (by omega) s hc hfin
    obtain ⟨s2, hl2, hd2⟩ := leads_runner_done cfg s1 k hl1.2.not_crashed (by omega)
      (fun name hn => hl1.2.fin k name (hfin k name hn))
    refine ⟨s2, leads_trans cfg s s1 s2 hl1 hl2, ?_⟩
    intro g hg
    by_cases hgk : g = k
    · subst hgk
      exact hd2
    · exact hl2.2.run g (hd1 g (by omega))

theorem leads_returned (cfg : Config) (s : State) (hc : s.crashed = false)
    (hout : ∀ g name, name ∈ members cfg g → (s.svc g name).outOfLoop = true) :
    ∃ s', Leads cfg s s' ∧ s'.returned = true := by
  obtain ⟨s1, hl1, hf1⟩ := leads_services_finished cfg cfg.groups.length s hc hout
  have hfin : ∀ g name, name ∈ members cfg g → (s1.svc g name).finished = true :=
    fun g name hn => hf1 g (members_lt cfg g name hn) name hn
  obtain ⟨s2, hl2, hd2⟩ := leads_runners_done cfg cfg.groups.length (Nat.le_refl _) s1
    hl1.2.not_crashed hfin
  have hl := leads_trans cfg s s1 s2 hl1 hl2
  cases hret : s2.returned
  · refine ⟨{ s2 with returned := true }, leads_trans cfg s s2 _ hl
      (leads_step cfg s2 _ .mainReturn rfl ?_
        ⟨hl2.2.not_crashed, fun _ _ h => h, fun _ _ h => h, fun _ h => h, fun _ => rfl,
          rfl, rfl⟩), rfl⟩
    simp only [step]
    rw [if_pos ⟨hl2.2.not_crashed, hret, hd2⟩]
  · exact ⟨s2, hl, hret⟩

/-- C8 as stated fails. In `soloReturned`, reached by an execution of `Run`
over one group with one service that returns at once, `Run` has returned
although the context passed to it, which is the stop signal of that service,
was never cancelled. -/
theorem run_returns_without_stop_signal :
    Reachable soloConfig anyAct soloReturned ∧ soloReturned.returned = true
      ∧ soloReturned.root = false ∧ ctxDone soloConfig soloReturned 0 = false :=
  ⟨soloReturned_reachable, rfl, rfl, rfl⟩

/-- C8, the premises of part (2) of the amended statement are needed. In
each state
`Run` has returned while the context passed to it was never cancelled. In
`soloHookPanicEnd` the hook `AfterServicePanic` panicked and the deferred
`wg.Done()` of the dying goroutine let `Run` return before the runtime ended
the process; in `soloGoexitEnd` the service ended its goroutine with
`runtime.Goexit()`; in `emptyReturned` the last group is empty (and every
service, there being none, has waited for its stop signal). -/
theorem root_signal_needs_each_premise :
    (Reachable soloHooked (waitingPlain soloHooked) soloHookPanicEnd
      ∧ soloHookPanicEnd.returned = true ∧ soloHookPanicEnd.root = false
      ∧ soloHookPanicEnd.crashed = false ∧ soloHookPanicEnd.svc 0 "S1" = .dead)
    ∧ (Reachable soloConfig (waitingHooked soloConfig) soloGoexitEnd
      ∧ soloGoexitEnd.returned = true ∧ soloGoexitEnd.root = false)
    ∧ (Reachable emptyConfig (disciplined emptyConfig) emptyReturned
      ∧ emptyReturned.returned = true ∧ emptyReturned.root = false) :=
  ⟨⟨⟨soloHookPanic, rfl⟩, rfl, rfl, rfl, rfl⟩, ⟨⟨soloGoexit, rfl⟩, rfl, rfl⟩,
    ⟨⟨[.drained 0, .cancel 0, .groupDone 0, .mainReturn], rfl⟩, rfl, rfl⟩⟩

/-- C8, amended. (1) In every state of every execution of `Run` in which
`Run` has returned, every service goroutine of every group is out of its call
of `retry`, whatever made it leave, and has called `wg.Done()`. (2) In every
state of an execution in which every service returns normally only after its
stop signal is triggered, `AfterServicePanic`, if supplied, returns normally
and nothing calls `runtime.Goexit()`: if `Run` has returned, then for every
service the context of its group is cancelled and the service has recorded a
normal return or has left its loop through a pause that the stop signal won;
and, if the last group is not empty, the context passed to `Run` is
cancelled. (3) From every state that has not crashed and in which every
service goroutine is out of its call of `retry`, there are steps after which
`Run` has returned, with no further call of a service or hook and without
cancelling the context passed to `Run`. -/
theorem run_returns_iff_all_loops_exited (cfg : Config) :
    (∀ s, Reachable cfg anyAct s → s.returned = true →
      ∀ g < cfg.groups.length, ∀ name ∈ members cfg g,
        (s.svc g name).outOfLoop = true ∧ (s.svc g name).finished = true)
    ∧ (∀ s, Reachable cfg (disciplined cfg) s → s.returned = true →
      (∀ g < cfg.groups.length, ∀ name ∈ members cfg g,
        ctxDone cfg s g = true
          ∧ (stoppedIn s.log g name = true ∨ s.leftInPause g name = true))
      ∧ (members cfg (cfg.groups.length - 1) ≠ [] → s.root = true))
    ∧ (∀ s, s.crashed = false →
      (∀ g name, name ∈ members cfg g → (s.svc g name).outOfLoop = true) →
      ∃ acts s', exec cfg (disciplined cfg) s acts = some s' ∧ s'.returned = true
        ∧ s'.log = s.log ∧ s'.root = s.root) := by
  refine ⟨?_, ?_, ?_⟩
  · intro s hreach hret g hg name hn
    have hC := cascade_reachable cfg anyAct s hreach
    have hf := hC.drained_finished g (by simp [hC.returned_done hret g hg]) name hn
    exact ⟨finished_outOfLoop _ hf, hf⟩
  · intro s hreach hret
    obtain ⟨hC, hO⟩ := ordered_reachable cfg s hreach
    have hR := recorded_reachable cfg s hreach
    have key : ∀ g < cfg.groups.length, ∀ name ∈ members cfg g,
        ctxDone cfg s g = true
          ∧ (stoppedIn s.log g name = true ∨ s.leftInPause g name = true) := by
      intro g hg name hn
      have hf := hC.drained_finished g (by simp [hC.returned_done hret g hg]) name hn
      exact ⟨hO.left_after_stop g name hn (finished_outOfLoop _ hf),
        hR g name (finished_outOfLoop _ hf)⟩
    refine ⟨key, fun hlast => ?_⟩
    obtain ⟨name, hn⟩ := List.exists_mem_of_ne_nil _ hlast
    have hlt := members_lt cfg _ name hn
    have := (key _ hlt name hn).1
    have hidx : cfg.groups.length - 1 + 1 = cfg.groups.length := by omega
    simpa [ctxDone, hidx] using this
  · intro s hc hout
    obtain ⟨s', ⟨⟨acts, hacts⟩, hadv⟩, hret⟩ := leads_returned cfg s hc hout
    exact ⟨acts, s', hacts, hret, hadv.log_eq, hadv.root_eq⟩

/-- C8, witness: `pairReturned`, where `Run` has returned after the context
passed to it was cancelled. -/
theorem run_returns_iff_all_loops_exited_witness :
    pairReturned.root = true
    ∧ ∀ g < pairConfig.groups.length, ∀ name ∈ members pairConfig g,
        (pairReturned.svc g name).outOfLoop = true
          ∧ (pairReturned.svc g name).finished = true :=
  ⟨((run_returns_iff_all_loops_exited pairConfig).2.1 pairReturned pairReturned_reachable
      rfl).2 (by decide),
    (run_returns_iff_all_loops_exited pairConfig).1 pairReturned
      (reachable_weaken _ _ _ pairReturned_reachable) rfl⟩

/-! ## The interleaved model runs the sequential loop -/

theorem exec_attempt (cfg : Config) (s : State) (g : Nat) (name : String)
    (e : AttemptEnv) (hc : s.crashed = false) (hm : name ∈ members cfg g)
    (hloop : s.svc g name = .loop) :
    ∃ s1, exec cfg anyAct s (attemptSteps (effectiveOptions cfg.opts) g name e) = some s1
      ∧ s1.log = s.log ++
          ((runServiceFn (effectiveOptions cfg.opts) name e).1 ++
            (afterFn (effectiveOptions cfg.opts).RecoverDuration
              (runServiceFn (effectiveOptions cfg.opts) name e).2).2).map (fun x => (g, x))
      ∧ s1.svc g name =
          (afterFn (effectiveOptions cfg.opts).RecoverDuration
            (runServiceFn (effectiveOptions cfg.opts) name e).2).1
      ∧ s1.crashed = false ∧ s1.root = s.root ∧ s1.derived = s.derived := by
  rcases hfe : fnEnter (effectiveOptions cfg.opts) name e with ⟨ev, _ | r⟩
  · refine ⟨(s.move g name .running ev).move g name
        (afterFn (effectiveOptions cfg.opts).RecoverDuration
          (fnLeave (effectiveOptions cfg.opts) name e).2).1
        ((fnLeave (effectiveOptions cfg.opts) name e).1 ++
          (afterFn (effectiveOptions cfg.opts).RecoverDuration
            (fnLeave (effectiveOptions cfg.opts) name e).2).2), ?_, ?_, ?_, hc, rfl, rfl⟩
    · simp [attemptSteps, hfe, exec, anyAct, step, hc, hm, hloop, State.move]
    · simp [runServiceFn, hfe, State.move, List.append_assoc]
    · simp [runServiceFn, hfe, State.move]
  · refine ⟨s.move g name (afterFn (effectiveOptions cfg.opts).RecoverDuration r).1
        (ev ++ (afterFn (effectiveOptions cfg.opts).RecoverDuration r).2),
      ?_, ?_, ?_, hc, rfl, rfl⟩
    · simp [attemptSteps, hfe, exec, anyAct, step, hc, hm, hloop]
    · simp [runServiceFn, hfe, State.move]
    · simp [runServiceFn, hfe, State.move]

/-- Every run of the sequential retry loop is a run of the goroutine of a
service in the interleaved model of `Run`: from a state in which the
goroutine is at the head of its loop, and in which the context of the group
is cancelled whenever the oracle lets the stop signal win a pause, the steps
of `schedule` are enabled, append the trace of the sequential loop to the log
and leave the goroutine out of `retry` the way the sequential loop ends. -/
theorem schedule_runs_retry (cfg : Config) (g : Nat) (name : String)
    (env : Nat → AttemptEnv) (race : Nat → PauseOutcome) (hm : name ∈ members cfg g) :
    ∀ (fuel n : Nat) (s : State) (tr : List Event) (res : LoopResult),
      s.crashed = false → s.svc g name = .loop →
      (∀ m, race m = .stop → ctxDone cfg s g = true) →
      retry race (effectiveOptions cfg.opts).RecoverDuration
        (fun m => runServiceFn (effectiveOptions cfg.opts) name (env m)) fuel n
        = some (tr, res) →
      ∃ s', exec cfg anyAct s
            (schedule (effectiveOptions cfg.opts) g name env race fuel n) = some s'
        ∧ s'.log = s.log ++ tr.map (fun x => (g, x))
        ∧ s'.svc g name = res.status ∧ s'.crashed = false := by
  intro fuel
  induction fuel with
  | zero => intro n s tr res _ _ _ h; simp [retry] at h
  | succ fuel ih =>
    intro n s tr res hc hloop hctx h
    obtain ⟨s1, hex, hlog, hsvc, hc1, hroot, hder⟩ :=
      exec_attempt cfg s g name (env n) hc hm hloop
    rcases hf : runServiceFn (effectiveOptions cfg.opts) name (env n) with ⟨ev, r⟩
    rw [hf] at hlog hsvc
    rcases r with b | _
    · cases b
      · simp [retry, hf] at h
        refine ⟨s1, ?_, ?_, ?_, hc1⟩
        · simpa [schedule, hf] using hex
        · simpa [afterFn, ← h.1] using hlog
        · simpa [afterFn, ← h.2, LoopResult.status] using hsvc
      · have hctx1 : ctxDone cfg s1 g = ctxDone cfg s g := by
          simp [ctxDone, hroot, hder]
        simp only [afterFn] at hlog hsvc
        cases hr : race n
        · have hstep : step cfg s1 (.timer g name) = some (s1.move g name .loop []) := by
            simp [step, hc1, hm, hsvc]
          cases hrest : retry race (effectiveOptions cfg.opts).RecoverDuration
              (fun m => runServiceFn (effectiveOptions cfg.opts) name (env m)) fuel (n + 1) with
          | none => simp [retry, hf, hr, hrest] at h
          | some p =>
            obtain ⟨rest, r'⟩ := p
            simp [retry, hf, hr, hrest] at h
            obtain ⟨s2, hex2, hlog2, hsvc2, hc2⟩ := ih (n + 1) (s1.move g name .loop []) rest r'
              (by simpa [State.move] using hc1) (by simp [State.move])
              (fun m hmr => by rw [ctxDone_move, hctx1]; exact hctx m hmr) hrest
            refine ⟨s2, ?_, ?_, ?_, hc2⟩
            · simp only [schedule, hf, hr]
              refine exec_append cfg anyAct _ _ s s1 s2 hex ?_
              simp only [exec, anyAct, hstep, if_true]
              exact hex2
            · rw [hlog2, ← h.1]
              simp [State.move, hlog, List.append_assoc]
            · rw [hsvc2, h.2]
        · have hstep : step cfg s1 (.stop g name) =
              some ((s1.move g name .exited []).mark g name) := by
            simp [step, hc1, hm, hsvc, hctx1, hctx n hr]
          simp [retry, hf, hr] at h
          refine ⟨(s1.move g name .exited []).mark g name, ?_, ?_, ?_,
            by simpa [State.move, State.mark] using hc1⟩
          · simp only [schedule, hf, hr]
            refine exec_append cfg anyAct _ _ s s1 _ hex ?_
            simp [exec, anyAct, hstep]
          · rw [← h.1]
            simp [State.move, State.mark, hlog]
          · simp [State.move, State.mark, ← h.2, LoopResult.status]
    · simp [retry, hf] at h
      refine ⟨s1, ?_, ?_, ?_, hc1⟩
      · simpa [schedule, hf] using hex
      · simpa [afterFn, ← h.1] using hlog
      · simpa [afterFn, ← h.2, LoopResult.status] using hsvc

end Flower

/-! ## `smesh` against `flower` -/

namespace Smesh

open Flower (Event AttemptEnv AttemptResult PauseOutcome LoopResult Outcome)

theorem attempt_eq_flower (opts : Options) (name : String) (e : AttemptEnv)
    (hp : opts.OnServicePanic = true) :
    runServiceFn opts name e = Flower.runServiceFn (toFlower opts) name e := by
  simp [runServiceFn, Flower.runServiceFn, fnEnter, Flower.fnEnter, fnLeave,
    Flower.fnLeave, recovered, Flower.recovered, toFlower, hp]

theorem retry_hook_calls_eq_flower (race : Nat → PauseOutcome) (d : Int)
    (fn : Nat → List Event × AttemptResult) :
    ∀ fuel n,
      (retry race d fn fuel n).map (fun p => (p.1.filter Event.isHookCall, p.2)) =
        (Flower.retry race d fn fuel n).map (fun p => (p.1.filter Event.isHookCall, p.2)) := by
  intro fuel
  induction fuel with
  | zero => intro n; simp [retry, Flower.retry]
  | succ fuel ih =>
    intro n
    rcases hfn : fn n with ⟨ev, res⟩
    rcases res with b | _
    · cases b
      · simp [retry, Flower.retry, hfn]
      · cases hr : race n
        · have := ih (n + 1)
          cases h1 : retry race d fn fuel (n + 1) <;>
            cases h2 : Flower.retry race d fn fuel (n + 1) <;>
            simp_all [retry, Flower.retry, Flower.Event.isHookCall, List.filter_append]
        · simp [retry, Flower.retry, hfn, hr, Flower.Event.isHookCall, List.filter_append]
    · simp [retry, Flower.retry, hfn]

/-- With the panic hook supplied, `smesh` and `flower` make the same hook
calls, in the same order, and end the loop the same way. -/
theorem hook_calls_eq_flower (opts : Options) (name : String)
    (env : Nat → AttemptEnv) (race : Nat → PauseOutcome) (fuel : Nat)
    (hp : opts.OnServicePanic = true) :
    (runService opts name env race fuel).map
        (fun p => (p.1.filter Event.isHookCall, p.2)) =
      (Flower.runService (toFlower opts) name env race fuel).map
        (fun p => (p.1.filter Event.isHookCall, p.2)) := by
  unfold runService Flower.runService
  have : (fun n => runServiceFn opts name (env n)) =
      (fun n => Flower.runServiceFn (toFlower opts) name (env n)) := by
    funext n
    exact attempt_eq_flower opts name (env n) hp
  rw [this]
  exact retry_hook_calls_eq_flower race _ _ fuel 0

/-- C9. With `RecoverDuration` one millisecond, all hooks supplied and a
service that panics once and then returns, `flower.Run` pauses for one
millisecond between the caught panic and the next invocation, and `smesh.Run`
pauses for three seconds. -/
theorem smesh_pause_ignores_RecoverDuration :
    Flower.runServiceUnderRun (toFlower ⟨1000000, true, true, true⟩) "S3"
        (fun n => ⟨.ok, if n = 0 then .panic else .ok, .ok, .ok⟩) (fun _ => .timer) 2
      = some ([Event.beforeStart "S3", Event.invoke "S3", Event.afterPanic "S3",
          Event.pause 1000000,
          Event.beforeStart "S3", Event.invoke "S3", Event.returned "S3",
          Event.afterStop "S3"], .returned)
    ∧ runServiceUnderRun ⟨1000000, true, true, true⟩ "S3"
        (fun n => ⟨.ok, if n = 0 then .panic else .ok, .ok, .ok⟩) (fun _ => .timer) 2
      = some ([Event.beforeStart "S3", Event.invoke "S3", Event.afterPanic "S3",
          Event.pause 3000000000,
          Event.beforeStart "S3", Event.invoke "S3", Event.returned "S3",
          Event.afterStop "S3"], .returned) := by
  constructor <;> rfl

end Smesh
